import Mathlib

/-!
# Verification of the Marlowe Go IR: canonical JSON codec and lexical scanner

This development shallowly embeds the two core components of the
`menabrealabs/marlowe` repository:

* the contract algebra (`Party`, `Token`, `ChoiceId`, `Bound`, `Value`,
  `Observation`, `Action`, `Case`, `Contract`) together with its canonical
  JSON encoding, translated from the Go struct definitions and their
  `json:"..."` field tags (`language/v1/core/value_types.go`, the core type
  files, and the action/contract type files), plus the decoder that the
  specification describes as the structural inverse of the encoder; and
* the pull-based lexical scanner (`v1/translator/scanner.go`), translated
  rune-by-rune from `Scanner.Scan` and its helper loops, over the ASCII
  fragment of the `unicode` character classes that the Go code consults.

JSON documents are modelled by an inductive `Json` type whose object
constructor keeps the field list in emission order, exactly as Go's
`encoding/json` emits struct fields in declaration order.
-/

namespace Marlowe

/-- Canonical wire documents: numbers are unbounded integers, objects keep
their fields in emission order (Go emits struct fields in declaration
order), arrays keep element order. -/
inductive Json where
  | num (n : Int)
  | str (s : String)
  | bool (b : Bool)
  | arr (elems : List Json)
  | obj (fields : List (String × Json))
  deriving Repr

mutual

/-- Render a document to its canonical textual form, matching the byte
strings asserted by the repository's `assertJson` test helper (none of the
strings occurring in the algebra require JSON escaping). -/
def renderJson : Json → String
  | .num n => toString n
  | .str s => "\"" ++ s ++ "\""
  | .bool b => if b then "true" else "false"
  | .arr elems => "[" ++ renderList elems ++ "]"
  | .obj fields => "\x7b" ++ renderFields fields ++ "\x7d"

/-- Comma-separated rendering of array elements. -/
def renderList : List Json → String
  | [] => ""
  | [j] => renderJson j
  | j :: rest => renderJson j ++ "," ++ renderList rest

/-- Comma-separated rendering of object fields. -/
def renderFields : List (String × Json) → String
  | [] => ""
  | [f] => "\"" ++ f.1 ++ "\":" ++ renderJson f.2
  | f :: rest => "\"" ++ f.1 ++ "\":" ++ renderJson f.2 ++ "," ++ renderFields rest

end

namespace Language

/-- Party from `core_types.go`: `Address` is a bech32 text (a bare string on
the wire), `Role` is a struct whose single field carries the tag
`json:"role_token"`. -/
inductive Party where
  | address (s : String)
  | role (name : String)
  deriving Repr, DecidableEq

/-- AccountId is declared as `type AccountId Party` in the Go source: a
party, not a distinct identity. -/
abbrev AccountId := Party

/-- Asset type from `core_types.go`: `Token` with fields tagged
`currency_symbol` and `token_name`; the zero value is the native-asset
sentinel `Ada`. -/
structure Token where
  symbol : String
  name : String
  deriving Repr, DecidableEq

/-- The native-asset sentinel `var Ada Token = Token{}`. -/
def Ada : Token := ⟨"", ""⟩

/-- ChoiceId from `action_types.go`: name tagged `choice_name`, owner tagged
`choice_owner`. -/
structure ChoiceId where
  name : String
  owner : Party
  deriving Repr, DecidableEq

/-- Bound from `action_types.go`: `Upper uint64 json:"from"` and
`Lower uint64 json:"to"` — the upper bound is emitted under `"from"` and the
lower bound under `"to"`, in that declaration order. -/
structure Bound where
  upper : Nat
  lower : Nat
  deriving Repr, DecidableEq

/-- ValueId is `type ValueId string`. -/
abbrev ValueId := String

/-- POSIXTime is `type POSIXTime int`, milliseconds since the Unix epoch. -/
abbrev POSIXTime := Int

/-- Timeout is `type Timeout POSIXTime`. -/
abbrev Timeout := POSIXTime

/-- Payee from `core_types.go`: a struct with the single exported field
`Party Party` and no `json` tag, so Go emits the field name `"Party"`
itself as the key. -/
structure Payee where
  party : Party
  deriving Repr, DecidableEq

mutual

/-- Value variants from `value_types.go`. `Constant` is a `big.Int`
(arbitrary precision, modelled by `Int`); `Cond` is the struct with fields
`Observation bool`, `IfTrue`, `IfFalse` and no `json` tags. The `ofObs`
injection reflects that in Go every `Observation` also satisfies the `Value`
interface. -/
inductive Value where
  | availableMoney (amount : Token) (account : AccountId)
  | constant (n : Int)
  | negValue (v : Value)
  | addValue (a b : Value)
  | subValue (a b : Value)
  | mulValue (a b : Value)
  | divValue (a b : Value)
  | choiceValue (id : ChoiceId)
  | timeIntervalStart
  | timeIntervalEnd
  | useValue (id : ValueId)
  | cond (b : Bool) (ifTrue ifFalse : Value)
  | ofObs (o : Observation)

/-- Observation variants from `value_types.go`, with the field tags
`both`/`and`, `either`/`or`, `not`, `chose_something_for`,
`value`/`ge_than`, `value`/`gt`, `value`/`lt`, `value`/`le_than`,
`value`/`equal_to`; `TrueObs`/`FalseObs` are the `BoolObs bool` constants. -/
inductive Observation where
  | andObs (a b : Observation)
  | orObs (a b : Observation)
  | notObs (o : Observation)
  | choseSomething (id : ChoiceId)
  | valueGE (a b : Value)
  | valueGT (a b : Value)
  | valueLT (a b : Value)
  | valueLE (a b : Value)
  | valueEQ (a b : Value)
  | trueObs
  | falseObs

end

/-- Action variants. `Choice` carries tags `for_choice`/`choose_between`
(from `action_types.go`). Modelled from the spec: the v1/core versions of
`Deposit` (tags `into_account`, `party`, `of_token`, `deposits`) and
`Notify` (tag `notify_if`) are missing from the provided sources — only
their tests are present — so their rows follow the specification's
canonical tag table. -/
inductive Action where
  | deposit (intoAccount : AccountId) (party : Party) (token : Token) (value : Value)
  | choice (id : ChoiceId) (bounds : List Bound)
  | notify (obs : Observation)

mutual

/-- Contract variants from `contract_types.go`: `Close` is the string
constant `"close"`; `Pay` carries tags `from_account`, `to`, `token`,
`pay`, `then`; `If` carries `if`, `then`, `else`; `Let` carries `let`,
`be`, `then`; `Assert` carries `assert`, `then`. Modelled from the spec:
the v1/core `When` (tags `when`, `timeout`, `timeout_continuation`) is
missing from the provided sources — only its tests are present — so its
row follows the specification's canonical tag table. -/
inductive Contract where
  | close
  | pay (source : AccountId) (payee : Payee) (token : Token) (value : Value) (cont : Contract)
  | ifContract (obs : Observation) (thenCont elseCont : Contract)
  | whenContract (cases : List Case) (timeout : Timeout) (cont : Contract)
  | letContract (name : ValueId) (value : Value) (cont : Contract)
  | assertContract (obs : Observation) (cont : Contract)

/-- Case pairs an action with a continuation contract. Modelled from the
spec: the v1/core `Case` (tags `case`, `then`) is missing from the
provided sources — only its tests are present — so its row follows the
specification's canonical tag table. -/
inductive Case where
  | mk (action : Action) (cont : Contract)

end

/-- Encoding of a party: an `Address` marshals as a bare JSON string, a
`Role` as the object with the single `role_token` field. -/
def encodeParty : Party → Json
  | .address s => .str s
  | .role name => .obj [("role_token", .str name)]

/-- Encoding of an asset, fields in declaration order. -/
def encodeToken (t : Token) : Json :=
  .obj [("currency_symbol", .str t.symbol), ("token_name", .str t.name)]

/-- Encoding of a choice identifier. -/
def encodeChoiceId (c : ChoiceId) : Json :=
  .obj [("choice_name", .str c.name), ("choice_owner", encodeParty c.owner)]

/-- Encoding of a bound: the upper bound under `"from"`, the lower bound
under `"to"`, exactly as the Go field tags dictate. -/
def encodeBound (b : Bound) : Json :=
  .obj [("from", .num b.upper), ("to", .num b.lower)]

/-- Encoding of a payee: the field has no `json` tag, so Go emits the
capitalized field name `"Party"` as the key. -/
def encodePayee (p : Payee) : Json :=
  .obj [("Party", encodeParty p.party)]

mutual

/-- Encoding of values. `Constant` marshals through its custom
`MarshalJSON`, which writes the decimal digits of the `big.Int` as raw
bytes: a bare, unquoted numeral. `Cond` has no field tags, so Go emits its
field names `Observation`, `IfTrue`, `IfFalse`. -/
def encodeValue : Value → Json
  | .availableMoney amount account =>
      .obj [("amount_of_token", encodeToken amount), ("in_account", encodeParty account)]
  | .constant n => .num n
  | .negValue v => .obj [("negate", encodeValue v)]
  | .addValue a b => .obj [("add", encodeValue a), ("and", encodeValue b)]
  | .subValue a b => .obj [("minus", encodeValue a), ("value", encodeValue b)]
  | .mulValue a b => .obj [("multiply", encodeValue a), ("times", encodeValue b)]
  | .divValue a b => .obj [("divide", encodeValue a), ("by", encodeValue b)]
  | .choiceValue id => .obj [("value_of_choice", encodeChoiceId id)]
  | .timeIntervalStart => .str "time_interval_start"
  | .timeIntervalEnd => .str "time_interval_end"
  | .useValue id => .obj [("use_value", .str id)]
  | .cond b ifTrue ifFalse =>
      .obj [("Observation", .bool b), ("IfTrue", encodeValue ifTrue),
            ("IfFalse", encodeValue ifFalse)]
  | .ofObs o => encodeObservation o

/-- Encoding of observations. -/
def encodeObservation : Observation → Json
  | .andObs a b => .obj [("both", encodeObservation a), ("and", encodeObservation b)]
  | .orObs a b => .obj [("either", encodeObservation a), ("or", encodeObservation b)]
  | .notObs o => .obj [("not", encodeObservation o)]
  | .choseSomething id => .obj [("chose_something_for", encodeChoiceId id)]
  | .valueGE a b => .obj [("value", encodeValue a), ("ge_than", encodeValue b)]
  | .valueGT a b => .obj [("value", encodeValue a), ("gt", encodeValue b)]
  | .valueLT a b => .obj [("value", encodeValue a), ("lt", encodeValue b)]
  | .valueLE a b => .obj [("value", encodeValue a), ("le_than", encodeValue b)]
  | .valueEQ a b => .obj [("value", encodeValue a), ("equal_to", encodeValue b)]
  | .trueObs => .bool true
  | .falseObs => .bool false

end

/-- Encoding of a list of bounds in order. -/
def encodeBounds : List Bound → List Json
  | [] => []
  | b :: rest => encodeBound b :: encodeBounds rest

/-- Encoding of actions. -/
def encodeAction : Action → Json
  | .deposit intoAccount party token value =>
      .obj [("into_account", encodeParty intoAccount), ("party", encodeParty party),
            ("of_token", encodeToken token), ("deposits", encodeValue value)]
  | .choice id bounds =>
      .obj [("for_choice", encodeChoiceId id), ("choose_between", .arr (encodeBounds bounds))]
  | .notify obs => .obj [("notify_if", encodeObservation obs)]

mutual

/-- Encoding of contracts. -/
def encodeContract : Contract → Json
  | .close => .str "close"
  | .pay source payee token value cont =>
      .obj [("from_account", encodeParty source), ("to", encodePayee payee),
            ("token", encodeToken token), ("pay", encodeValue value),
            ("then", encodeContract cont)]
  | .ifContract obs thenCont elseCont =>
      .obj [("if", encodeObservation obs), ("then", encodeContract thenCont),
            ("else", encodeContract elseCont)]
  | .whenContract cases timeout cont =>
      .obj [("when", .arr (encodeCases cases)), ("timeout", .num timeout),
            ("timeout_continuation", encodeContract cont)]
  | .letContract name value cont =>
      .obj [("let", .str name), ("be", encodeValue value), ("then", encodeContract cont)]
  | .assertContract obs cont =>
      .obj [("assert", encodeObservation obs), ("then", encodeContract cont)]

/-- Encoding of a case. -/
def encodeCase : Case → Json
  | .mk action cont => .obj [("case", encodeAction action), ("then", encodeContract cont)]

/-- Encoding of a list of cases in order. -/
def encodeCases : List Case → List Json
  | [] => []
  | c :: rest => encodeCase c :: encodeCases rest

end

/-- Modelled from the spec: the repository ships no decoder (no
`UnmarshalJSON` is present in the sources), while the specification defines
`decode(document) → node | DecodeError` as the structural inverse of the
encoder, dispatching on each literal key-set and rejecting documents whose
key-set matches none. Party decoding: a bare string is an `Address`, the
single-field `role_token` object is a `Role`. -/
def decodeParty : Json → Option Party
  | .str s => some (.address s)
  | .obj [("role_token", .str name)] => some (.role name)
  | _ => none

/-- Modelled from the spec: decoding of an asset object. -/
def decodeToken : Json → Option Token
  | .obj [("currency_symbol", .str symbol), ("token_name", .str name)] => some ⟨symbol, name⟩
  | _ => none

/-- Modelled from the spec: decoding of a choice identifier. -/
def decodeChoiceId : Json → Option ChoiceId
  | .obj [("choice_name", .str name), ("choice_owner", owner)] =>
      (decodeParty owner).map (⟨name, ·⟩)
  | _ => none

/-- Modelled from the spec: decoding of a bound; `"from"` is the upper and
`"to"` the lower bound, and both must be non-negative numerals since the
fields are `uint64`. -/
def decodeBound : Json → Option Bound
  | .obj [("from", .num upper), ("to", .num lower)] =>
      if 0 ≤ upper ∧ 0 ≤ lower then some ⟨upper.toNat, lower.toNat⟩ else none
  | _ => none

/-- Modelled from the spec: decoding of a list of bounds. -/
def decodeBounds : List Json → Option (List Bound)
  | [] => some []
  | j :: rest =>
      match decodeBound j, decodeBounds rest with
      | some b, some bs => some (b :: bs)
      | _, _ => none

/-- Modelled from the spec: decoding of a payee, the single-key object
whose capitalized key `"Party"` wraps the payee's party. -/
def decodePayee : Json → Option Payee
  | .obj [("Party", p)] => (decodeParty p).map Payee.mk
  | _ => none

/-- Restrict a decoded value to an observation: exactly the observation
shapes decode to `ofObs` nodes, so this projection recovers observation
decoding from value decoding. -/
def asObs : Option Value → Option Observation
  | some (.ofObs o) => some o
  | _ => none

/-- Modelled from the spec: decoding of values. Because several variants
share a `value`-keyed shape differing only in the second key, dispatch is
on the specific second key. Observation shapes are accepted in value
position (every observation is a legal value) and injected via `ofObs`.
The grammar of the specification's tag table has no row for `Cond`, so no
document decodes to a `Cond` node. The dispatch matches on the shape of
the document (scalar, or object with its field count) and compares the
literal keys of the tag table. -/
def decodeValue : Json → Option Value
  | .num n => some (.constant n)
  | .str s =>
      if s = "time_interval_start" then some .timeIntervalStart
      else if s = "time_interval_end" then some .timeIntervalEnd
      else none
  | .bool b => some (.ofObs (if b then .trueObs else .falseObs))
  | .obj [(k, a)] =>
      if k = "negate" then (decodeValue a).map .negValue
      else if k = "value_of_choice" then (decodeChoiceId a).map .choiceValue
      else if k = "use_value" then
        match a with
        | .str id => some (.useValue id)
        | _ => none
      else if k = "not" then (asObs (decodeValue a)).map (.ofObs <| .notObs ·)
      else if k = "chose_something_for" then
        (decodeChoiceId a).map (.ofObs <| .choseSomething ·)
      else none
  | .obj [(k1, a), (k2, b)] =>
      if k1 = "amount_of_token" ∧ k2 = "in_account" then
        (decodeToken a).bind fun t => (decodeParty b).map fun p => .availableMoney t p
      else if k1 = "add" ∧ k2 = "and" then
        (decodeValue a).bind fun x => (decodeValue b).map fun y => .addValue x y
      else if k1 = "minus" ∧ k2 = "value" then
        (decodeValue a).bind fun x => (decodeValue b).map fun y => .subValue x y
      else if k1 = "multiply" ∧ k2 = "times" then
        (decodeValue a).bind fun x => (decodeValue b).map fun y => .mulValue x y
      else if k1 = "divide" ∧ k2 = "by" then
        (decodeValue a).bind fun x => (decodeValue b).map fun y => .divValue x y
      else if k1 = "both" ∧ k2 = "and" then
        (asObs (decodeValue a)).bind fun x =>
          (asObs (decodeValue b)).map fun y => .ofObs (.andObs x y)
      else if k1 = "either" ∧ k2 = "or" then
        (asObs (decodeValue a)).bind fun x =>
          (asObs (decodeValue b)).map fun y => .ofObs (.orObs x y)
      else if k1 = "value" ∧ k2 = "ge_than" then
        (decodeValue a).bind fun x => (decodeValue b).map fun y => .ofObs (.valueGE x y)
      else if k1 = "value" ∧ k2 = "gt" then
        (decodeValue a).bind fun x => (decodeValue b).map fun y => .ofObs (.valueGT x y)
      else if k1 = "value" ∧ k2 = "lt" then
        (decodeValue a).bind fun x => (decodeValue b).map fun y => .ofObs (.valueLT x y)
      else if k1 = "value" ∧ k2 = "le_than" then
        (decodeValue a).bind fun x => (decodeValue b).map fun y => .ofObs (.valueLE x y)
      else if k1 = "value" ∧ k2 = "equal_to" then
        (decodeValue a).bind fun x => (decodeValue b).map fun y => .ofObs (.valueEQ x y)
      else none
  | _ => none

/-- Modelled from the spec: decoding of observations. The observation
shapes are exactly the value shapes that decode to `ofObs` nodes, so
observation decoding is value decoding followed by the `asObs`
projection. -/
def decodeObservation (j : Json) : Option Observation :=
  asObs (decodeValue j)

/-- Modelled from the spec: decoding of actions, dispatching on the three
literal key-sets of the tag table. -/
def decodeAction : Json → Option Action
  | .obj [(k, o)] =>
      if k = "notify_if" then (decodeObservation o).map .notify else none
  | .obj [(k1, c), (k2, bs)] =>
      if k1 = "for_choice" ∧ k2 = "choose_between" then
        match bs with
        | .arr elems =>
            (decodeChoiceId c).bind fun c2 =>
              (decodeBounds elems).map fun bs2 => .choice c2 bs2
        | _ => none
      else none
  | .obj [(k1, a), (k2, p), (k3, t), (k4, v)] =>
      if k1 = "into_account" ∧ k2 = "party" ∧ k3 = "of_token" ∧ k4 = "deposits" then
        (decodeParty a).bind fun a2 => (decodeParty p).bind fun p2 =>
          (decodeToken t).bind fun t2 => (decodeValue v).map fun v2 =>
            .deposit a2 p2 t2 v2
      else none
  | _ => none

mutual

/-- Modelled from the spec: decoding of contracts; `"close"` is the only
bare-string contract, every other shape is dispatched by its key-set. -/
def decodeContract : Json → Option Contract
  | .str s => if s = "close" then some .close else none
  | .obj [(k1, o), (k2, k)] =>
      if k1 = "assert" ∧ k2 = "then" then
        (decodeObservation o).bind fun o2 =>
          (decodeContract k).map fun k2 => .assertContract o2 k2
      else none
  | .obj [(k1, a), (k2, b), (k3, c)] =>
      if k1 = "if" ∧ k2 = "then" ∧ k3 = "else" then
        (decodeObservation a).bind fun o2 => (decodeContract b).bind fun t2 =>
          (decodeContract c).map fun e2 => .ifContract o2 t2 e2
      else if k1 = "when" ∧ k2 = "timeout" ∧ k3 = "timeout_continuation" then
        match a, b with
        | .arr cs, .num t =>
            (decodeCases cs).bind fun cs2 =>
              (decodeContract c).map fun k2 => .whenContract cs2 t k2
        | _, _ => none
      else if k1 = "let" ∧ k2 = "be" ∧ k3 = "then" then
        match a with
        | .str name =>
            (decodeValue b).bind fun v2 =>
              (decodeContract c).map fun k2 => .letContract name v2 k2
        | _ => none
      else none
  | .obj [(k1, a), (k2, p), (k3, t), (k4, v), (k5, k)] =>
      if k1 = "from_account" ∧ k2 = "to" ∧ k3 = "token" ∧ k4 = "pay" ∧ k5 = "then" then
        (decodeParty a).bind fun a2 => (decodePayee p).bind fun p2 =>
          (decodeToken t).bind fun t2 => (decodeValue v).bind fun v2 =>
            (decodeContract k).map fun k2 => .pay a2 p2 t2 v2 k2
      else none
  | _ => none

/-- Modelled from the spec: decoding of a case object. -/
def decodeCase : Json → Option Case
  | .obj [(k1, a), (k2, k)] =>
      if k1 = "case" ∧ k2 = "then" then
        (decodeAction a).bind fun a2 => (decodeContract k).map fun k2 => .mk a2 k2
      else none
  | _ => none

/-- Modelled from the spec: decoding of a list of cases. -/
def decodeCases : List Json → Option (List Case)
  | [] => some []
  | j :: rest =>
      match decodeCase j, decodeCases rest with
      | some c, some cs => some (c :: cs)
      | _, _ => none

end

mutual

/-- A value is cond-free when no `Cond` node occurs in it. -/
def condFreeValue : Value → Bool
  | .availableMoney _ _ => true
  | .constant _ => true
  | .negValue v => condFreeValue v
  | .addValue a b => condFreeValue a && condFreeValue b
  | .subValue a b => condFreeValue a && condFreeValue b
  | .mulValue a b => condFreeValue a && condFreeValue b
  | .divValue a b => condFreeValue a && condFreeValue b
  | .choiceValue _ => true
  | .timeIntervalStart => true
  | .timeIntervalEnd => true
  | .useValue _ => true
  | .cond _ _ _ => false
  | .ofObs o => condFreeObservation o

/-- An observation is cond-free when no `Cond` node occurs in it. -/
def condFreeObservation : Observation → Bool
  | .andObs a b => condFreeObservation a && condFreeObservation b
  | .orObs a b => condFreeObservation a && condFreeObservation b
  | .notObs o => condFreeObservation o
  | .choseSomething _ => true
  | .valueGE a b => condFreeValue a && condFreeValue b
  | .valueGT a b => condFreeValue a && condFreeValue b
  | .valueLT a b => condFreeValue a && condFreeValue b
  | .valueLE a b => condFreeValue a && condFreeValue b
  | .valueEQ a b => condFreeValue a && condFreeValue b
  | .trueObs => true
  | .falseObs => true

end

/-- An action is cond-free when no `Cond` node occurs in it. -/
def condFreeAction : Action → Bool
  | .deposit _ _ _ v => condFreeValue v
  | .choice _ _ => true
  | .notify o => condFreeObservation o

mutual

/-- A contract is cond-free when no `Cond` node occurs in it. -/
def condFreeContract : Contract → Bool
  | .close => true
  | .pay _ _ _ v k => condFreeValue v && condFreeContract k
  | .ifContract o t e => condFreeObservation o && condFreeContract t && condFreeContract e
  | .whenContract cs _ k => condFreeCases cs && condFreeContract k
  | .letContract _ v k => condFreeValue v && condFreeContract k
  | .assertContract o k => condFreeObservation o && condFreeContract k

/-- A case is cond-free when no `Cond` node occurs in it. -/
def condFreeCase : Case → Bool
  | .mk a k => condFreeAction a && condFreeContract k

/-- A case list is cond-free when each case is. -/
def condFreeCases : List Case → Bool
  | [] => true
  | c :: rest => condFreeCase c && condFreeCases rest

end

end Language

namespace Translator

/-- Position from `scanner.go`: 1-based line, and a column counter that is
incremented for every consumed rune and reset to 0 on a newline. Go's
`int` is modelled by `Int`. -/
structure Pos where
  line : Int
  column : Int
  deriving Repr, DecidableEq

/-- Token kinds of the scanner, in the order of the Go constant block. -/
inductive TokType where
  | eof
  | invalid
  | keyword
  | string
  | int
  | parensL
  | parensR
  | squareL
  | squareR
  | comma
  deriving Repr, DecidableEq

/-- A scanned token: kind, captured text, and position. The Go zero value
of `Position` is `(0, 0)`; tokens built without an explicit `Position`
field (the `EOF` token and the invalid-keyword token) carry it. -/
structure Tok where
  type : TokType
  value : String
  position : Pos
  deriving Repr, DecidableEq

/-- The zero position carried by tokens whose construction omits the
`Position` field. -/
def zeroPos : Pos := ⟨0, 0⟩

/-- ASCII fragment of Go's `unicode.IsSpace`: tab, newline, vertical tab,
form feed, carriage return, space (code points 9–13 and 32). -/
def isSpace (c : Char) : Bool :=
  c.toNat = 32 || (9 ≤ c.toNat && c.toNat ≤ 13)

/-- ASCII fragment of Go's `unicode.IsDigit`: the code points of 0–9. -/
def isDigit (c : Char) : Bool :=
  48 ≤ c.toNat && c.toNat ≤ 57

/-- ASCII fragment of Go's `unicode.IsLetter`: the code points of A–Z and
a–z. -/
def isLetter (c : Char) : Bool :=
  (65 ≤ c.toNat && c.toNat ≤ 90) || (97 ≤ c.toNat && c.toNat ≤ 122)

/-- ASCII fragment of Go's `unicode.IsPunct` (Unicode categories Pc, Pd,
Pe, Pf, Pi, Po, Ps restricted to code points below 128): the characters
`! " # % & ' ( ) * , - . / : ; ? @ [ \ ] _ \x7b \x7d`. -/
def isPunct (c : Char) : Bool :=
  c.toNat = 33 || c.toNat = 34 || c.toNat = 35 || c.toNat = 37 || c.toNat = 38 ||
  c.toNat = 39 || c.toNat = 40 || c.toNat = 41 || c.toNat = 42 || c.toNat = 44 ||
  c.toNat = 45 || c.toNat = 46 || c.toNat = 47 || c.toNat = 58 || c.toNat = 59 ||
  c.toNat = 63 || c.toNat = 64 || c.toNat = 91 || c.toNat = 92 || c.toNat = 93 ||
  c.toNat = 95 || c.toNat = 123 || c.toNat = 125

/-- The fixed keyword vocabulary `validKeywords` from `scanner.go`, in
source order. -/
def validKeywords : List String :=
  ["Let", "When", "If", "Pay", "Assert", "Close",
   "Deposit", "Notify", "Choice", "ChoiceId", "Bound",
   "AvailableMoney", "Constant", "NegValue", "AddValue", "SubValue", "MulValue", "DivValue",
   "ChoiceValue", "TimeIntervalValue", "UseValue", "Cond",
   "AndObs", "OrObs", "NotObs", "ChoseSomething", "ValueGE", "ValueGT", "ValueLE", "ValueLT",
   "ValueEQ", "TrueObs", "FalseObs"]

/-- `Scanner.isValidKeyword`: linear scan of the vocabulary. -/
def isValidKeyword (word : String) : Bool :=
  validKeywords.contains word

/-- `Scanner.integer`: consume consecutive digits, accumulating them and
advancing the column; a letter or punctuation rune is backed up (column
restored, rune left in the input) and reported as an error; any other
rune is backed up and the digits are returned; end of input returns the
digits. Result: accumulated digits, success flag (`false` when a letter
or punctuation rune followed), final column, remaining input. -/
def intLoop : List Char → Int → String → String × Bool × Int × List Char
  | [], col, num => (num, true, col, [])
  | c :: rest, col, num =>
    if isLetter c || isPunct c then (num, false, col, c :: rest)
    else if isDigit c then intLoop rest (col + 1) (num.push c)
    else (num, true, col, c :: rest)

/-- `Scanner.str`: consume runes, counting double quotes; while fewer than
two quotes have been seen the rune is appended; the rune that brings the
quote count to two (the closing quote) is backed up — column restored and
the rune left in the input — and the captured text is returned; end of
input returns the captured text. -/
def strLoop : List Char → Int → Nat → String → String × Int × List Char
  | [], col, _, s => (s, col, [])
  | c :: rest, col, q, s =>
    let q2 := if c = '"' then q + 1 else q
    if q2 < 2 then strLoop rest (col + 1) q2 (s.push c)
    else (s, col, c :: rest)

/-- `Scanner.keyword`: consume consecutive letters; the first non-letter
rune is backed up and the captured word returned; end of input returns
the word. -/
def kwLoop : List Char → Int → String → String × Int × List Char
  | [], col, s => (s, col, [])
  | c :: rest, col, s =>
    if isLetter c then kwLoop rest (col + 1) (s.push c)
    else (s, col, c :: rest)

/-- One call of `Scanner.Scan`, returning the token together with the
scanner's internal position and the remaining input. Structure follows
the Go source: end of input returns `Token{Type: EOF}` (zero position);
otherwise the column is incremented for the consumed rune and the rune is
dispatched — newline resets the position and continues; the five
structural runes return single-character tokens; a double quote is backed
up and scanned by `strLoop`; spaces are skipped; a digit is backed up and
scanned by `intLoop`, yielding `INT` or `INVALID` (both carrying the
position); a letter is backed up and scanned by `kwLoop`, yielding
`KEYWORD` with the position or, for a word outside the vocabulary,
`INVALID` without a `Position` field (hence the zero position); any other
rune is an `INVALID` single-character token. -/
def scanStep : Pos → List Char → Tok × Pos × List Char
  | pos, [] => (⟨.eof, "", zeroPos⟩, pos, [])
  | pos, c :: rest =>
    let p1 : Pos := ⟨pos.line, pos.column + 1⟩
    if c = '\n' then scanStep ⟨p1.line + 1, 0⟩ rest
    else if c = '(' then (⟨.parensL, "(", p1⟩, p1, rest)
    else if c = ')' then (⟨.parensR, ")", p1⟩, p1, rest)
    else if c = '[' then (⟨.squareL, "[", p1⟩, p1, rest)
    else if c = ']' then (⟨.squareR, "]", p1⟩, p1, rest)
    else if c = ',' then (⟨.comma, ",", p1⟩, p1, rest)
    else if c = '"' then
      let r := strLoop (c :: rest) pos.column 0 ""
      (⟨.string, r.1, ⟨pos.line, r.2.1⟩⟩, ⟨pos.line, r.2.1⟩, r.2.2)
    else if isSpace c then scanStep p1 rest
    else if isDigit c then
      let r := intLoop (c :: rest) pos.column ""
      if r.2.1 then (⟨.int, r.1, ⟨pos.line, r.2.2.1⟩⟩, ⟨pos.line, r.2.2.1⟩, r.2.2.2)
      else (⟨.invalid, r.1, ⟨pos.line, r.2.2.1⟩⟩, ⟨pos.line, r.2.2.1⟩, r.2.2.2)
    else if isLetter c then
      let r := kwLoop (c :: rest) pos.column ""
      if isValidKeyword r.1 then (⟨.keyword, r.1, ⟨pos.line, r.2.1⟩⟩, ⟨pos.line, r.2.1⟩, r.2.2)
      else (⟨.invalid, r.1, zeroPos⟩, ⟨pos.line, r.2.1⟩, r.2.2)
    else (⟨.invalid, String.singleton c, p1⟩, p1, rest)

/-- Repeated calls of `Scan`, collecting tokens until (and including) the
`EOF` token, with an explicit fuel bound. -/
def scanList : Nat → Pos → List Char → List Tok
  | 0, _, _ => []
  | fuel + 1, pos, input =>
    let r := scanStep pos input
    if r.1.type = .eof then [r.1] else r.1 :: scanList fuel r.2.1 r.2.2

/-- The token stream of an input: `Scan` is called repeatedly from the
initial `NewScanner` state until it returns `EOF`. One unit of fuel per
input character plus one suffices because every non-`EOF` token consumes
at least one character. -/
def scanAll (pos : Pos) (input : List Char) : List Tok :=
  scanList (input.length + 1) pos input

/-- The position of a fresh scanner from `NewScanner`: line 1, column 0. -/
def startPos : Pos := ⟨1, 0⟩

/-- Lexicographic order on positions: the line strictly increases, or the
line agrees and the column does not decrease. -/
def posLE (p q : Pos) : Prop :=
  p.line < q.line ∨ (p.line = q.line ∧ p.column ≤ q.column)

instance (p q : Pos) : Decidable (posLE p q) := by
  unfold posLE
  infer_instance

/-- The positions carried by a token stream, excluding the tokens built
without a `Position` field (which carry the zero position): the claim
C8 amendment restricts monotonicity to position-carrying tokens. -/
def carriedPositions (ts : List Tok) : List Pos :=
  (ts.filter (fun t => t.position ≠ zeroPos)).map Tok.position

end Translator

namespace Language

/-! Shape equations for the decoders: one definitional equation per
document shape, used in place of automatically generated unfolding
lemmas. -/

theorem decodeValue_num (n : Int) : decodeValue (.num n) = some (.constant n) := rfl

theorem decodeValue_str (s : String) :
    decodeValue (.str s) =
      (if s = "time_interval_start" then some .timeIntervalStart
      else if s = "time_interval_end" then some .timeIntervalEnd
      else none) := rfl

theorem decodeValue_bool (b : Bool) :
    decodeValue (.bool b) = some (.ofObs (if b then .trueObs else .falseObs)) := rfl

theorem decodeValue_arr (xs : List Json) : decodeValue (.arr xs) = none := rfl

theorem decodeValue_obj_nil : decodeValue (.obj []) = none := rfl

theorem decodeValue_obj_one (k : String) (a : Json) :
    decodeValue (.obj [(k, a)]) =
      (if k = "negate" then (decodeValue a).map .negValue
      else if k = "value_of_choice" then (decodeChoiceId a).map .choiceValue
      else if k = "use_value" then
        match a with
        | .str id => some (.useValue id)
        | _ => none
      else if k = "not" then (asObs (decodeValue a)).map (.ofObs <| .notObs ·)
      else if k = "chose_something_for" then
        (decodeChoiceId a).map (.ofObs <| .choseSomething ·)
      else none) := rfl

theorem decodeValue_obj_two (k1 : String) (a : Json) (k2 : String) (b : Json) :
    decodeValue (.obj [(k1, a), (k2, b)]) =
      (if k1 = "amount_of_token" ∧ k2 = "in_account" then
        (decodeToken a).bind fun t => (decodeParty b).map fun p => .availableMoney t p
      else if k1 = "add" ∧ k2 = "and" then
        (decodeValue a).bind fun x => (decodeValue b).map fun y => .addValue x y
      else if k1 = "minus" ∧ k2 = "value" then
        (decodeValue a).bind fun x => (decodeValue b).map fun y => .subValue x y
      else if k1 = "multiply" ∧ k2 = "times" then
        (decodeValue a).bind fun x => (decodeValue b).map fun y => .mulValue x y
      else if k1 = "divide" ∧ k2 = "by" then
        (decodeValue a).bind fun x => (decodeValue b).map fun y => .divValue x y
      else if k1 = "both" ∧ k2 = "and" then
        (asObs (decodeValue a)).bind fun x =>
          (asObs (decodeValue b)).map fun y => .ofObs (.andObs x y)
      else if k1 = "either" ∧ k2 = "or" then
        (asObs (decodeValue a)).bind fun x =>
          (asObs (decodeValue b)).map fun y => .ofObs (.orObs x y)
      else if k1 = "value" ∧ k2 = "ge_than" then
        (decodeValue a).bind fun x => (decodeValue b).map fun y => .ofObs (.valueGE x y)
      else if k1 = "value" ∧ k2 = "gt" then
        (decodeValue a).bind fun x => (decodeValue b).map fun y => .ofObs (.valueGT x y)
      else if k1 = "value" ∧ k2 = "lt" then
        (decodeValue a).bind fun x => (decodeValue b).map fun y => .ofObs (.valueLT x y)
      else if k1 = "value" ∧ k2 = "le_than" then
        (decodeValue a).bind fun x => (decodeValue b).map fun y => .ofObs (.valueLE x y)
      else if k1 = "value" ∧ k2 = "equal_to" then
        (decodeValue a).bind fun x => (decodeValue b).map fun y => .ofObs (.valueEQ x y)
      else none) := rfl

theorem decodeValue_obj_big (p q r : String × Json) (rest : List (String × Json)) :
    decodeValue (.obj (p :: q :: r :: rest)) = none := rfl

theorem decodeContract_str (s : String) :
    decodeContract (.str s) = (if s = "close" then some .close else none) := rfl

theorem decodeContract_obj_two (k1 : String) (o : Json) (k2 : String) (k : Json) :
    decodeContract (.obj [(k1, o), (k2, k)]) =
      (if k1 = "assert" ∧ k2 = "then" then
        (decodeObservation o).bind fun o2 =>
          (decodeContract k).map fun k2 => .assertContract o2 k2
      else none) := rfl

theorem decodeContract_obj_three (k1 : String) (a : Json) (k2 : String) (b : Json)
    (k3 : String) (c : Json) :
    decodeContract (.obj [(k1, a), (k2, b), (k3, c)]) =
      (if k1 = "if" ∧ k2 = "then" ∧ k3 = "else" then
        (decodeObservation a).bind fun o2 => (decodeContract b).bind fun t2 =>
          (decodeContract c).map fun e2 => .ifContract o2 t2 e2
      else if k1 = "when" ∧ k2 = "timeout" ∧ k3 = "timeout_continuation" then
        match a, b with
        | .arr cs, .num t =>
            (decodeCases cs).bind fun cs2 =>
              (decodeContract c).map fun k2 => .whenContract cs2 t k2
        | _, _ => none
      else if k1 = "let" ∧ k2 = "be" ∧ k3 = "then" then
        match a with
        | .str name =>
            (decodeValue b).bind fun v2 =>
              (decodeContract c).map fun k2 => .letContract name v2 k2
        | _ => none
      else none) := by
  cases a <;> cases b <;> rfl

theorem decodeContract_obj_five (k1 : String) (a : Json) (k2 : String) (p : Json)
    (k3 : String) (t : Json) (k4 : String) (v : Json) (k5 : String) (k : Json) :
    decodeContract (.obj [(k1, a), (k2, p), (k3, t), (k4, v), (k5, k)]) =
      (if k1 = "from_account" ∧ k2 = "to" ∧ k3 = "token" ∧ k4 = "pay" ∧ k5 = "then" then
        (decodeParty a).bind fun a2 => (decodePayee p).bind fun p2 =>
          (decodeToken t).bind fun t2 => (decodeValue v).bind fun v2 =>
            (decodeContract k).map fun k2 => .pay a2 p2 t2 v2 k2
      else none) := rfl

theorem decodeCase_obj_two (k1 : String) (a : Json) (k2 : String) (k : Json) :
    decodeCase (.obj [(k1, a), (k2, k)]) =
      (if k1 = "case" ∧ k2 = "then" then
        (decodeAction a).bind fun a2 => (decodeContract k).map fun k2 => .mk a2 k2
      else none) := rfl

theorem decodeAction_obj_one (k : String) (o : Json) :
    decodeAction (.obj [(k, o)]) =
      (if k = "notify_if" then (decodeObservation o).map .notify else none) := rfl

theorem decodeAction_obj_two (k1 : String) (c : Json) (k2 : String) (bs : Json) :
    decodeAction (.obj [(k1, c), (k2, bs)]) =
      (if k1 = "for_choice" ∧ k2 = "choose_between" then
        match bs with
        | .arr elems =>
            (decodeChoiceId c).bind fun c2 =>
              (decodeBounds elems).map fun bs2 => .choice c2 bs2
        | _ => none
      else none) := rfl

theorem decodeAction_obj_four (k1 : String) (a : Json) (k2 : String) (p : Json)
    (k3 : String) (t : Json) (k4 : String) (v : Json) :
    decodeAction (.obj [(k1, a), (k2, p), (k3, t), (k4, v)]) =
      (if k1 = "into_account" ∧ k2 = "party" ∧ k3 = "of_token" ∧ k4 = "deposits" then
        (decodeParty a).bind fun a2 => (decodeParty p).bind fun p2 =>
          (decodeToken t).bind fun t2 => (decodeValue v).map fun v2 =>
            .deposit a2 p2 t2 v2
      else none) := rfl

/-! Round trip, first direction: decoding an encoded node restores the
node, for every cond-free node. -/

theorem decodeParty_encodeParty (p : Party) : decodeParty (encodeParty p) = some p := by
  cases p <;> rfl

theorem decodeToken_encodeToken (t : Token) : decodeToken (encodeToken t) = some t := rfl

theorem decodeChoiceId_encodeChoiceId (c : ChoiceId) :
    decodeChoiceId (encodeChoiceId c) = some c := by
  simp [encodeChoiceId, decodeChoiceId, decodeParty_encodeParty]

theorem decodeBound_encodeBound (b : Bound) : decodeBound (encodeBound b) = some b := by
  simp [encodeBound, decodeBound]

theorem decodeBounds_encodeBounds (bs : List Bound) :
    decodeBounds (encodeBounds bs) = some bs := by
  induction bs with
  | nil => rfl
  | cons b rest ih => simp [encodeBounds, decodeBounds, decodeBound_encodeBound, ih]

theorem decodePayee_encodePayee (p : Payee) : decodePayee (encodePayee p) = some p := by
  simp [encodePayee, decodePayee, decodeParty_encodeParty]

mutual

theorem decodeValue_encodeValue (v : Value) (h : condFreeValue v = true) :
    decodeValue (encodeValue v) = some v := by
  cases v with
  | availableMoney t a =>
      simp [encodeValue, decodeValue_obj_two, decodeToken_encodeToken, decodeParty_encodeParty]
  | constant n => rfl
  | negValue w =>
      have ih := decodeValue_encodeValue w (by simpa [condFreeValue] using h)
      simp [encodeValue, decodeValue_obj_one, ih]
  | addValue a b =>
      simp only [condFreeValue, Bool.and_eq_true] at h
      have ih1 := decodeValue_encodeValue a h.1
      have ih2 := decodeValue_encodeValue b h.2
      simp [encodeValue, decodeValue_obj_two, ih1, ih2]
  | subValue a b =>
      simp only [condFreeValue, Bool.and_eq_true] at h
      have ih1 := decodeValue_encodeValue a h.1
      have ih2 := decodeValue_encodeValue b h.2
      simp [encodeValue, decodeValue_obj_two, ih1, ih2]
  | mulValue a b =>
      simp only [condFreeValue, Bool.and_eq_true] at h
      have ih1 := decodeValue_encodeValue a h.1
      have ih2 := decodeValue_encodeValue b h.2
      simp [encodeValue, decodeValue_obj_two, ih1, ih2]
  | divValue a b =>
      simp only [condFreeValue, Bool.and_eq_true] at h
      have ih1 := decodeValue_encodeValue a h.1
      have ih2 := decodeValue_encodeValue b h.2
      simp [encodeValue, decodeValue_obj_two, ih1, ih2]
  | choiceValue c =>
      simp [encodeValue, decodeValue_obj_one, decodeChoiceId_encodeChoiceId]
  | timeIntervalStart => rfl
  | timeIntervalEnd => rfl
  | useValue id => rfl
  | cond b t f => simp [condFreeValue] at h
  | ofObs o =>
      have ih := decodeValue_encodeObservation o (by simpa [condFreeValue] using h)
      simpa [encodeValue] using ih

theorem decodeValue_encodeObservation (o : Observation) (h : condFreeObservation o = true) :
    decodeValue (encodeObservation o) = some (.ofObs o) := by
  cases o with
  | andObs a b =>
      simp only [condFreeObservation, Bool.and_eq_true] at h
      have ih1 := decodeValue_encodeObservation a h.1
      have ih2 := decodeValue_encodeObservation b h.2
      simp [encodeObservation, decodeValue_obj_two, ih1, ih2, asObs]
  | orObs a b =>
      simp only [condFreeObservation, Bool.and_eq_true] at h
      have ih1 := decodeValue_encodeObservation a h.1
      have ih2 := decodeValue_encodeObservation b h.2
      simp [encodeObservation, decodeValue_obj_two, ih1, ih2, asObs]
  | notObs q =>
      have ih := decodeValue_encodeObservation q (by simpa [condFreeObservation] using h)
      simp [encodeObservation, decodeValue_obj_one, ih, asObs]
  | choseSomething c =>
      simp [encodeObservation, decodeValue_obj_one, decodeChoiceId_encodeChoiceId]
  | valueGE a b =>
      simp only [condFreeObservation, Bool.and_eq_true] at h
      have ih1 := decodeValue_encodeValue a h.1
      have ih2 := decodeValue_encodeValue b h.2
      simp [encodeObservation, decodeValue_obj_two, ih1, ih2]
  | valueGT a b =>
      simp only [condFreeObservation, Bool.and_eq_true] at h
      have ih1 := decodeValue_encodeValue a h.1
      have ih2 := decodeValue_encodeValue b h.2
      simp [encodeObservation, decodeValue_obj_two, ih1, ih2]
  | valueLT a b =>
      simp only [condFreeObservation, Bool.and_eq_true] at h
      have ih1 := decodeValue_encodeValue a h.1
      have ih2 := decodeValue_encodeValue b h.2
      simp [encodeObservation, decodeValue_obj_two, ih1, ih2]
  | valueLE a b =>
      simp only [condFreeObservation, Bool.and_eq_true] at h
      have ih1 := decodeValue_encodeValue a h.1
      have ih2 := decodeValue_encodeValue b h.2
      simp [encodeObservation, decodeValue_obj_two, ih1, ih2]
  | valueEQ a b =>
      simp only [condFreeObservation, Bool.and_eq_true] at h
      have ih1 := decodeValue_encodeValue a h.1
      have ih2 := decodeValue_encodeValue b h.2
      simp [encodeObservation, decodeValue_obj_two, ih1, ih2]
  | trueObs => rfl
  | falseObs => rfl

end

theorem decodeObservation_encodeObservation (o : Observation)
    (h : condFreeObservation o = true) :
    decodeObservation (encodeObservation o) = some o := by
  simp [decodeObservation, decodeValue_encodeObservation o h, asObs]

theorem decodeAction_encodeAction (a : Action) (h : condFreeAction a = true) :
    decodeAction (encodeAction a) = some a := by
  cases a with
  | deposit acct p t v =>
      rw [condFreeAction] at h
      simp [encodeAction, decodeAction_obj_four, decodeParty_encodeParty,
        decodeToken_encodeToken, decodeValue_encodeValue v h]
  | choice c bs =>
      simp [encodeAction, decodeAction_obj_two, decodeChoiceId_encodeChoiceId,
        decodeBounds_encodeBounds]
  | notify o =>
      rw [condFreeAction] at h
      simp [encodeAction, decodeAction_obj_one, decodeObservation_encodeObservation o h]

mutual

theorem decodeContract_encodeContract (c : Contract) (h : condFreeContract c = true) :
    decodeContract (encodeContract c) = some c := by
  cases c with
  | close => rfl
  | pay a p t v k =>
      simp only [condFreeContract, Bool.and_eq_true] at h
      have ihk := decodeContract_encodeContract k h.2
      simp [encodeContract, decodeContract_obj_five, decodeParty_encodeParty,
        decodePayee_encodePayee, decodeToken_encodeToken, decodeValue_encodeValue v h.1, ihk]
  | ifContract o t e =>
      simp only [condFreeContract, Bool.and_eq_true] at h
      have iht := decodeContract_encodeContract t h.1.2
      have ihe := decodeContract_encodeContract e h.2
      simp [encodeContract, decodeContract_obj_three,
        decodeObservation_encodeObservation o h.1.1, iht, ihe]
  | whenContract cs t k =>
      simp only [condFreeContract, Bool.and_eq_true] at h
      have ihcs := decodeCases_encodeCases cs h.1
      have ihk := decodeContract_encodeContract k h.2
      simp [encodeContract, decodeContract_obj_three, ihcs, ihk]
  | letContract n v k =>
      simp only [condFreeContract, Bool.and_eq_true] at h
      have ihk := decodeContract_encodeContract k h.2
      simp [encodeContract, decodeContract_obj_three, decodeValue_encodeValue v h.1, ihk]
  | assertContract o k =>
      simp only [condFreeContract, Bool.and_eq_true] at h
      have ihk := decodeContract_encodeContract k h.2
      simp [encodeContract, decodeContract_obj_two,
        decodeObservation_encodeObservation o h.1, ihk]

theorem decodeCase_encodeCase (c : Case) (h : condFreeCase c = true) :
    decodeCase (encodeCase c) = some c := by
  cases c with
  | mk a k =>
      simp only [condFreeCase, Bool.and_eq_true] at h
      have iha := decodeAction_encodeAction a h.1
      have ihk := decodeContract_encodeContract k h.2
      simp [encodeCase, decodeCase_obj_two, iha, ihk]

theorem decodeCases_encodeCases (cs : List Case) (h : condFreeCases cs = true) :
    decodeCases (encodeCases cs) = some cs := by
  cases cs with
  | nil => rfl
  | cons c rest =>
      simp only [condFreeCases, Bool.and_eq_true] at h
      have ihc := decodeCase_encodeCase c h.1
      have ihr := decodeCases_encodeCases rest h.2
      simp [encodeCases, decodeCases, ihc, ihr]

end

/-! Round trip, second direction: every document accepted by the decoder
is reproduced exactly by encoding the decoded node. -/

theorem encodeParty_decodeParty (j : Json) (p : Party) (h : decodeParty j = some p) :
    encodeParty p = j := by
  rw [decodeParty.eq_def] at h
  split at h
  · cases h; rfl
  · cases h; rfl
  · cases h

theorem encodeToken_decodeToken (j : Json) (t : Token) (h : decodeToken j = some t) :
    encodeToken t = j := by
  rw [decodeToken.eq_def] at h
  split at h
  · cases h; rfl
  · cases h

theorem encodeChoiceId_decodeChoiceId (j : Json) (c : ChoiceId)
    (h : decodeChoiceId j = some c) : encodeChoiceId c = j := by
  rw [decodeChoiceId.eq_def] at h
  split at h
  case _ name owner =>
    cases hp : decodeParty owner with
    | none => rw [hp] at h; cases h
    | some p =>
        rw [hp] at h
        cases h
        simp [encodeChoiceId, encodeParty_decodeParty owner p hp]
  case _ => cases h

theorem encodeBound_decodeBound (j : Json) (b : Bound) (h : decodeBound j = some b) :
    encodeBound b = j := by
  rw [decodeBound.eq_def] at h
  split at h
  · split at h
    · cases h
      simp_all [encodeBound, Int.toNat_of_nonneg]
    · cases h
  · cases h

theorem encodeBounds_decodeBounds (js : List Json) (bs : List Bound)
    (h : decodeBounds js = some bs) : encodeBounds bs = js := by
  induction js generalizing bs with
  | nil => rw [decodeBounds] at h; cases h; rfl
  | cons j rest ih =>
      rw [decodeBounds] at h
      cases hb : decodeBound j with
      | none => rw [hb] at h; cases h
      | some b =>
          cases hr : decodeBounds rest with
          | none => rw [hb, hr] at h; cases h
          | some tail =>
              rw [hb, hr] at h
              cases h
              simp [encodeBounds, encodeBound_decodeBound j b hb, ih tail hr]

theorem encodePayee_decodePayee (j : Json) (p : Payee) (h : decodePayee j = some p) :
    encodePayee p = j := by
  rw [decodePayee.eq_def] at h
  split at h
  case _ q =>
    cases hp : decodeParty q with
    | none => rw [hp] at h; cases h
    | some p2 =>
        rw [hp] at h
        cases h
        simp [encodePayee, encodeParty_decodeParty q p2 hp]
  case _ => cases h

theorem asObs_eq_some (w : Option Value) (q : Observation) :
    asObs w = some q ↔ w = some (.ofObs q) := by
  cases w with
  | none => simp [asObs]
  | some x => cases x <;> simp [asObs]

theorem encodeValue_decodeValue (j : Json) (v : Value) (h : decodeValue j = some v) :
    encodeValue v = j := by
  cases j with
  | num n => rw [decodeValue_num] at h; cases h; rfl
  | str s =>
      rw [decodeValue_str] at h
      split_ifs at h with h1 h2
      · cases h; subst h1; rfl
      · cases h; subst h2; rfl
  | bool b =>
      rw [decodeValue_bool] at h
      cases h
      cases b <;> rfl
  | arr xs => rw [decodeValue_arr] at h; cases h
  | obj fields =>
      rcases fields with _ | ⟨⟨k, a⟩, _ | ⟨⟨k2, b⟩, _ | ⟨r, rest⟩⟩⟩
      · rw [decodeValue_obj_nil] at h; cases h
      · rw [decodeValue_obj_one] at h
        split_ifs at h with h1 h2 h3 h4 h5
        · cases ha : decodeValue a with
          | none => rw [ha] at h; cases h
          | some x =>
              rw [ha] at h
              cases h
              subst h1
              simp [encodeValue, encodeValue_decodeValue a x ha]
        · cases hc : decodeChoiceId a with
          | none => rw [hc] at h; cases h
          | some ci =>
              rw [hc] at h
              cases h
              subst h2
              simp [encodeValue, encodeChoiceId_decodeChoiceId a ci hc]
        · split at h
          case _ id =>
            cases h
            subst h3
            simp [encodeValue]
          case _ => cases h
        · cases hq : asObs (decodeValue a) with
          | none => rw [hq] at h; cases h
          | some q =>
              rw [hq] at h
              cases h
              subst h4
              have ha := (asObs_eq_some (decodeValue a) q).mp hq
              have ih := encodeValue_decodeValue a (.ofObs q) ha
              rw [encodeValue] at ih
              simp [encodeValue, encodeObservation, ih]
        · cases hc : decodeChoiceId a with
          | none => rw [hc] at h; cases h
          | some ci =>
              rw [hc] at h
              cases h
              subst h5
              simp [encodeValue, encodeObservation, encodeChoiceId_decodeChoiceId a ci hc]
      · rw [decodeValue_obj_two] at h
        by_cases h1 : k = "amount_of_token" ∧ k2 = "in_account"
        · rw [if_pos h1] at h
          obtain ⟨rfl, rfl⟩ := h1
          cases ht : decodeToken a with
          | none => rw [ht] at h; cases h
          | some t2 =>
              cases hp : decodeParty b with
              | none => rw [ht, hp] at h; cases h
              | some p2 =>
                  rw [ht, hp] at h
                  cases h
                  simp [encodeValue, encodeToken_decodeToken a t2 ht,
                    encodeParty_decodeParty b p2 hp]
        rw [if_neg h1] at h
        by_cases h2 : k = "add" ∧ k2 = "and"
        · rw [if_pos h2] at h
          obtain ⟨rfl, rfl⟩ := h2
          cases hx : decodeValue a with
          | none => rw [hx] at h; cases h
          | some x =>
              cases hy : decodeValue b with
              | none => rw [hx, hy] at h; cases h
              | some y =>
                  rw [hx, hy] at h
                  cases h
                  simp [encodeValue, encodeValue_decodeValue a x hx,
                    encodeValue_decodeValue b y hy]
        rw [if_neg h2] at h
        by_cases h3 : k = "minus" ∧ k2 = "value"
        · rw [if_pos h3] at h
          obtain ⟨rfl, rfl⟩ := h3
          cases hx : decodeValue a with
          | none => rw [hx] at h; cases h
          | some x =>
              cases hy : decodeValue b with
              | none => rw [hx, hy] at h; cases h
              | some y =>
                  rw [hx, hy] at h
                  cases h
                  simp [encodeValue, encodeValue_decodeValue a x hx,
                    encodeValue_decodeValue b y hy]
        rw [if_neg h3] at h
        by_cases h4 : k = "multiply" ∧ k2 = "times"
        · rw [if_pos h4] at h
          obtain ⟨rfl, rfl⟩ := h4
          cases hx : decodeValue a with
          | none => rw [hx] at h; cases h
          | some x =>
              cases hy : decodeValue b with
              | none => rw [hx, hy] at h; cases h
              | some y =>
                  rw [hx, hy] at h
                  cases h
                  simp [encodeValue, encodeValue_decodeValue a x hx,
                    encodeValue_decodeValue b y hy]
        rw [if_neg h4] at h
        by_cases h5 : k = "divide" ∧ k2 = "by"
        · rw [if_pos h5] at h
          obtain ⟨rfl, rfl⟩ := h5
          cases hx : decodeValue a with
          | none => rw [hx] at h; cases h
          | some x =>
              cases hy : decodeValue b with
              | none => rw [hx, hy] at h; cases h
              | some y =>
                  rw [hx, hy] at h
                  cases h
                  simp [encodeValue, encodeValue_decodeValue a x hx,
                    encodeValue_decodeValue b y hy]
        rw [if_neg h5] at h
        by_cases h6 : k = "both" ∧ k2 = "and"
        · rw [if_pos h6] at h
          obtain ⟨rfl, rfl⟩ := h6
          cases hq : asObs (decodeValue a) with
          | none => rw [hq] at h; cases h
          | some q =>
              cases hq2 : asObs (decodeValue b) with
              | none => rw [hq, hq2] at h; cases h
              | some q2 =>
                  rw [hq, hq2] at h
                  cases h
                  have iha :=
                    encodeValue_decodeValue a (.ofObs q) ((asObs_eq_some _ q).mp hq)
                  have ihb :=
                    encodeValue_decodeValue b (.ofObs q2) ((asObs_eq_some _ q2).mp hq2)
                  rw [encodeValue] at iha ihb
                  simp [encodeValue, encodeObservation, iha, ihb]
        rw [if_neg h6] at h
        by_cases h7 : k = "either" ∧ k2 = "or"
        · rw [if_pos h7] at h
          obtain ⟨rfl, rfl⟩ := h7
          cases hq : asObs (decodeValue a) with
          | none => rw [hq] at h; cases h
          | some q =>
              cases hq2 : asObs (decodeValue b) with
              | none => rw [hq, hq2] at h; cases h
              | some q2 =>
                  rw [hq, hq2] at h
                  cases h
                  have iha :=
                    encodeValue_decodeValue a (.ofObs q) ((asObs_eq_some _ q).mp hq)
                  have ihb :=
                    encodeValue_decodeValue b (.ofObs q2) ((asObs_eq_some _ q2).mp hq2)
                  rw [encodeValue] at iha ihb
                  simp [encodeValue, encodeObservation, iha, ihb]
        rw [if_neg h7] at h
        by_cases h8 : k = "value" ∧ k2 = "ge_than"
        · rw [if_pos h8] at h
          obtain ⟨rfl, rfl⟩ := h8
          cases hx : decodeValue a with
          | none => rw [hx] at h; cases h
          | some x =>
              cases hy : decodeValue b with
              | none => rw [hx, hy] at h; cases h
              | some y =>
                  rw [hx, hy] at h
                  cases h
                  simp [encodeValue, encodeObservation, encodeValue_decodeValue a x hx,
                    encodeValue_decodeValue b y hy]
        rw [if_neg h8] at h
        by_cases h9 : k = "value" ∧ k2 = "gt"
        · rw [if_pos h9] at h
          obtain ⟨rfl, rfl⟩ := h9
          cases hx : decodeValue a with
          | none => rw [hx] at h; cases h
          | some x =>
              cases hy : decodeValue b with
              | none => rw [hx, hy] at h; cases h
              | some y =>
                  rw [hx, hy] at h
                  cases h
                  simp [encodeValue, encodeObservation, encodeValue_decodeValue a x hx,
                    encodeValue_decodeValue b y hy]
        rw [if_neg h9] at h
        by_cases h10 : k = "value" ∧ k2 = "lt"
        · rw [if_pos h10] at h
          obtain ⟨rfl, rfl⟩ := h10
          cases hx : decodeValue a with
          | none => rw [hx] at h; cases h
          | some x =>
              cases hy : decodeValue b with
              | none => rw [hx, hy] at h; cases h
              | some y =>
                  rw [hx, hy] at h
                  cases h
                  simp [encodeValue, encodeObservation, encodeValue_decodeValue a x hx,
                    encodeValue_decodeValue b y hy]
        rw [if_neg h10] at h
        by_cases h11 : k = "value" ∧ k2 = "le_than"
        · rw [if_pos h11] at h
          obtain ⟨rfl, rfl⟩ := h11
          cases hx : decodeValue a with
          | none => rw [hx] at h; cases h
          | some x =>
              cases hy : decodeValue b with
              | none => rw [hx, hy] at h; cases h
              | some y =>
                  rw [hx, hy] at h
                  cases h
                  simp [encodeValue, encodeObservation, encodeValue_decodeValue a x hx,
                    encodeValue_decodeValue b y hy]
        rw [if_neg h11] at h
        by_cases h12 : k = "value" ∧ k2 = "equal_to"
        · rw [if_pos h12] at h
          obtain ⟨rfl, rfl⟩ := h12
          cases hx : decodeValue a with
          | none => rw [hx] at h; cases h
          | some x =>
              cases hy : decodeValue b with
              | none => rw [hx, hy] at h; cases h
              | some y =>
                  rw [hx, hy] at h
                  cases h
                  simp [encodeValue, encodeObservation, encodeValue_decodeValue a x hx,
                    encodeValue_decodeValue b y hy]
        rw [if_neg h12] at h
        cases h
      · rw [decodeValue_obj_big] at h; cases h


theorem encodeObservation_decodeObservation (j : Json) (o : Observation)
    (h : decodeObservation j = some o) : encodeObservation o = j := by
  rw [decodeObservation] at h
  have h2 := (asObs_eq_some (decodeValue j) o).mp h
  have h3 := encodeValue_decodeValue j (.ofObs o) h2
  rw [encodeValue] at h3
  exact h3

theorem encodeAction_decodeAction (j : Json) (a : Action) (h : decodeAction j = some a) :
    encodeAction a = j := by
  cases j with
  | num n => cases h
  | str s => cases h
  | bool b => cases h
  | arr xs => cases h
  | obj fields =>
      rcases fields with _ | ⟨⟨k1, x1⟩, _ | ⟨⟨k2, x2⟩, _ | ⟨⟨k3, x3⟩, _ | ⟨⟨k4, x4⟩, _ | ⟨p5, rest⟩⟩⟩⟩⟩
      · cases h
      · rw [decodeAction_obj_one] at h
        by_cases hk : k1 = "notify_if"
        · rw [if_pos hk] at h
          subst hk
          cases ho : decodeObservation x1 with
          | none => rw [ho] at h; cases h
          | some o =>
              rw [ho] at h
              cases h
              simp [encodeAction, encodeObservation_decodeObservation x1 o ho]
        rw [if_neg hk] at h
        cases h
      · rw [decodeAction_obj_two] at h
        by_cases hk : k1 = "for_choice" ∧ k2 = "choose_between"
        · rw [if_pos hk] at h
          obtain ⟨rfl, rfl⟩ := hk
          split at h
          case _ elems =>
            cases hc : decodeChoiceId x1 with
            | none => rw [hc] at h; cases h
            | some c2 =>
                cases hb : decodeBounds elems with
                | none => rw [hc, hb] at h; cases h
                | some bs2 =>
                    rw [hc, hb] at h
                    cases h
                    simp [encodeAction, encodeChoiceId_decodeChoiceId x1 c2 hc,
                      encodeBounds_decodeBounds elems bs2 hb]
          case _ => cases h
        rw [if_neg hk] at h
        cases h
      · cases h
      · rw [decodeAction_obj_four] at h
        by_cases hk : k1 = "into_account" ∧ k2 = "party" ∧ k3 = "of_token" ∧ k4 = "deposits"
        · rw [if_pos hk] at h
          obtain ⟨rfl, rfl, rfl, rfl⟩ := hk
          cases ha : decodeParty x1 with
          | none => rw [ha] at h; cases h
          | some a2 =>
              cases hp : decodeParty x2 with
              | none => rw [ha, hp] at h; cases h
              | some p2 =>
                  cases ht : decodeToken x3 with
                  | none => rw [ha, hp, ht] at h; cases h
                  | some t2 =>
                      cases hv : decodeValue x4 with
                      | none => rw [ha, hp, ht, hv] at h; cases h
                      | some v2 =>
                          rw [ha, hp, ht, hv] at h
                          cases h
                          simp [encodeAction, encodeParty_decodeParty x1 a2 ha,
                            encodeParty_decodeParty x2 p2 hp,
                            encodeToken_decodeToken x3 t2 ht,
                            encodeValue_decodeValue x4 v2 hv]
        rw [if_neg hk] at h
        cases h
      · cases h

mutual

theorem encodeContract_decodeContract (j : Json) (c : Contract)
    (h : decodeContract j = some c) : encodeContract c = j := by
  cases j with
  | num n => cases h
  | str s =>
      rw [decodeContract_str] at h
      by_cases hs : s = "close"
      · rw [if_pos hs] at h
        cases h
        subst hs
        rfl
      rw [if_neg hs] at h
      cases h
  | bool b => cases h
  | arr xs => cases h
  | obj fields =>
      rcases fields with _ | ⟨⟨k1, x1⟩, _ | ⟨⟨k2, x2⟩, _ | ⟨⟨k3, x3⟩, _ | ⟨⟨k4, x4⟩,
        _ | ⟨⟨k5, x5⟩, _ | ⟨p6, rest⟩⟩⟩⟩⟩⟩
      · cases h
      · cases h
      · rw [decodeContract_obj_two] at h
        by_cases hk : k1 = "assert" ∧ k2 = "then"
        · rw [if_pos hk] at h
          obtain ⟨rfl, rfl⟩ := hk
          cases ho : decodeObservation x1 with
          | none => rw [ho] at h; cases h
          | some o2 =>
              cases hc : decodeContract x2 with
              | none => rw [ho, hc] at h; cases h
              | some k2 =>
                  rw [ho, hc] at h
                  cases h
                  simp [encodeContract, encodeObservation_decodeObservation x1 o2 ho,
                    encodeContract_decodeContract x2 k2 hc]
        rw [if_neg hk] at h
        cases h
      · rw [decodeContract_obj_three] at h
        by_cases hk : k1 = "if" ∧ k2 = "then" ∧ k3 = "else"
        · rw [if_pos hk] at h
          obtain ⟨rfl, rfl, rfl⟩ := hk
          cases ho : decodeObservation x1 with
          | none => rw [ho] at h; cases h
          | some o2 =>
              cases ht : decodeContract x2 with
              | none => rw [ho, ht] at h; cases h
              | some t2 =>
                  cases he : decodeContract x3 with
                  | none => rw [ho, ht, he] at h; cases h
                  | some e2 =>
                      rw [ho, ht, he] at h
                      cases h
                      simp [encodeContract, encodeObservation_decodeObservation x1 o2 ho,
                        encodeContract_decodeContract x2 t2 ht,
                        encodeContract_decodeContract x3 e2 he]
        rw [if_neg hk] at h
        by_cases hk2 : k1 = "when" ∧ k2 = "timeout" ∧ k3 = "timeout_continuation"
        · rw [if_pos hk2] at h
          obtain ⟨rfl, rfl, rfl⟩ := hk2
          split at h
          case _ cs t =>
            cases hcs : decodeCases cs with
            | none => rw [hcs] at h; cases h
            | some cs2 =>
                cases hc : decodeContract x3 with
                | none => rw [hcs, hc] at h; cases h
                | some k2 =>
                    rw [hcs, hc] at h
                    cases h
                    simp [encodeContract, encodeCases_decodeCases cs cs2 hcs,
                      encodeContract_decodeContract x3 k2 hc]
          case _ => cases h
        rw [if_neg hk2] at h
        by_cases hk3 : k1 = "let" ∧ k2 = "be" ∧ k3 = "then"
        · rw [if_pos hk3] at h
          obtain ⟨rfl, rfl, rfl⟩ := hk3
          split at h
          case _ name =>
            cases hv : decodeValue x2 with
            | none => rw [hv] at h; cases h
            | some v2 =>
                cases hc : decodeContract x3 with
                | none => rw [hv, hc] at h; cases h
                | some k2 =>
                    rw [hv, hc] at h
                    cases h
                    simp [encodeContract, encodeValue_decodeValue x2 v2 hv,
                      encodeContract_decodeContract x3 k2 hc]
          case _ => cases h
        rw [if_neg hk3] at h
        cases h
      · cases h
      · rw [decodeContract_obj_five] at h
        by_cases hk : k1 = "from_account" ∧ k2 = "to" ∧ k3 = "token" ∧ k4 = "pay" ∧ k5 = "then"
        · rw [if_pos hk] at h
          obtain ⟨rfl, rfl, rfl, rfl, rfl⟩ := hk
          cases ha : decodeParty x1 with
          | none => rw [ha] at h; cases h
          | some a2 =>
              cases hp : decodePayee x2 with
              | none => rw [ha, hp] at h; cases h
              | some p2 =>
                  cases ht : decodeToken x3 with
                  | none => rw [ha, hp, ht] at h; cases h
                  | some t2 =>
                      cases hv : decodeValue x4 with
                      | none => rw [ha, hp, ht, hv] at h; cases h
                      | some v2 =>
                          cases hc : decodeContract x5 with
                          | none => rw [ha, hp, ht, hv, hc] at h; cases h
                          | some k2 =>
                              rw [ha, hp, ht, hv, hc] at h
                              cases h
                              simp [encodeContract, encodeParty_decodeParty x1 a2 ha,
                                encodePayee_decodePayee x2 p2 hp,
                                encodeToken_decodeToken x3 t2 ht,
                                encodeValue_decodeValue x4 v2 hv,
                                encodeContract_decodeContract x5 k2 hc]
        rw [if_neg hk] at h
        cases h
      · cases h

theorem encodeCase_decodeCase (j : Json) (c : Case) (h : decodeCase j = some c) :
    encodeCase c = j := by
  cases j with
  | num n => cases h
  | str s => cases h
  | bool b => cases h
  | arr xs => cases h
  | obj fields =>
      rcases fields with _ | ⟨⟨k1, x1⟩, _ | ⟨⟨k2, x2⟩, _ | ⟨p3, rest⟩⟩⟩
      · cases h
      · cases h
      · rw [decodeCase_obj_two] at h
        by_cases hk : k1 = "case" ∧ k2 = "then"
        · rw [if_pos hk] at h
          obtain ⟨rfl, rfl⟩ := hk
          cases ha : decodeAction x1 with
          | none => rw [ha] at h; cases h
          | some a2 =>
              cases hc : decodeContract x2 with
              | none => rw [ha, hc] at h; cases h
              | some k2 =>
                  rw [ha, hc] at h
                  cases h
                  simp [encodeCase, encodeAction_decodeAction x1 a2 ha,
                    encodeContract_decodeContract x2 k2 hc]
        rw [if_neg hk] at h
        cases h
      · cases h

theorem encodeCases_decodeCases (js : List Json) (cs : List Case)
    (h : decodeCases js = some cs) : encodeCases cs = js := by
  cases js with
  | nil => rw [decodeCases] at h; cases h; rfl
  | cons j rest =>
      rw [decodeCases] at h
      cases hc : decodeCase j with
      | none => rw [hc] at h; cases h
      | some c2 =>
          cases hr : decodeCases rest with
          | none => rw [hc, hr] at h; cases h
          | some tail =>
              rw [hc, hr] at h
              cases h
              simp [encodeCases, encodeCase_decodeCase j c2 hc,
                encodeCases_decodeCases rest tail hr]

end

end Language

namespace Translator

/-! Character-class facts used to drive the scanner's dispatch. -/

theorem digit_facts (c : Char) (h : isDigit c = true) :
    c ≠ '\n' ∧ c ≠ '(' ∧ c ≠ ')' ∧ c ≠ '[' ∧ c ≠ ']' ∧ c ≠ ',' ∧ c ≠ '"' ∧
      isSpace c = false ∧ isLetter c = false ∧ isPunct c = false := by
  simp only [isDigit, Bool.and_eq_true, decide_eq_true_eq] at h
  refine ⟨?_, ?_, ?_, ?_, ?_, ?_, ?_, ?_, ?_, ?_⟩
  all_goals first
    | (intro hc; subst hc; exact absurd h (by decide))
    | (simp only [isSpace, isLetter, isPunct, Bool.or_eq_true, Bool.and_eq_true,
        decide_eq_true_eq, Bool.eq_false_iff, ne_eq]
       omega)

theorem letter_facts (c : Char) (h : isLetter c = true) :
    c ≠ '\n' ∧ c ≠ '(' ∧ c ≠ ')' ∧ c ≠ '[' ∧ c ≠ ']' ∧ c ≠ ',' ∧ c ≠ '"' ∧
      isSpace c = false ∧ isDigit c = false ∧ isPunct c = false := by
  simp only [isLetter, Bool.or_eq_true, Bool.and_eq_true, decide_eq_true_eq] at h
  refine ⟨?_, ?_, ?_, ?_, ?_, ?_, ?_, ?_, ?_, ?_⟩
  all_goals first
    | (intro hc; subst hc; exact absurd h (by decide))
    | (simp only [isSpace, isDigit, isPunct, Bool.or_eq_true, Bool.and_eq_true,
        decide_eq_true_eq, Bool.eq_false_iff, ne_eq]
       omega)

/-! Helper-loop facts: accumulated text, final column, and remaining
input for inputs of a known class. -/

theorem intLoop_digits (ds : List Char) (hds : ∀ c ∈ ds, isDigit c = true) :
    ∀ (rest : List Char) (col : Int) (s : String),
      intLoop (ds ++ rest) col s = intLoop rest (col + ds.length) ⟨s.data ++ ds⟩ := by
  induction ds with
  | nil => intro rest col s; simp
  | cons c ds2 ih =>
      intro rest col s
      have hc := hds c (by simp)
      have hfacts := digit_facts c hc
      rw [List.cons_append, intLoop]
      rw [hfacts.2.2.2.2.2.2.2.2.1, hfacts.2.2.2.2.2.2.2.2.2]
      simp only [Bool.or_self, Bool.false_eq_true, if_false, hc, if_true]
      rw [ih (fun d hd => hds d (by simp [hd]))]
      have hcol : col + 1 + (ds2.length : Int) = col + ((c :: ds2).length : Int) := by
        push_cast [List.length_cons]
        ring
      have hstr : (String.push s c).data ++ ds2 = s.data ++ c :: ds2 := by
        simp [String.push]
      rw [hcol, hstr]

theorem intLoop_stops (c : Char) (rest : List Char) (col : Int) (s : String)
    (h : (isLetter c || isPunct c) = false) (hd : isDigit c = false) :
    intLoop (c :: rest) col s = (s, true, col, c :: rest) := by
  rw [intLoop]
  simp [h, hd]

theorem intLoop_fails (c : Char) (rest : List Char) (col : Int) (s : String)
    (h : (isLetter c || isPunct c) = true) :
    intLoop (c :: rest) col s = (s, false, col, c :: rest) := by
  rw [intLoop]
  simp [h]

theorem kwLoop_letters (ls : List Char) (hls : ∀ c ∈ ls, isLetter c = true) :
    ∀ (rest : List Char) (col : Int) (s : String),
      kwLoop (ls ++ rest) col s = kwLoop rest (col + ls.length) ⟨s.data ++ ls⟩ := by
  induction ls with
  | nil => intro rest col s; simp
  | cons c ls2 ih =>
      intro rest col s
      have hc := hls c (by simp)
      rw [List.cons_append, kwLoop, if_pos hc]
      rw [ih (fun d hd => hls d (by simp [hd]))]
      have hcol : col + 1 + (ls2.length : Int) = col + ((c :: ls2).length : Int) := by
        push_cast [List.length_cons]
        ring
      have hstr : (String.push s c).data ++ ls2 = s.data ++ c :: ls2 := by
        simp [String.push]
      rw [hcol, hstr]

theorem kwLoop_stops (c : Char) (rest : List Char) (col : Int) (s : String)
    (h : isLetter c = false) :
    kwLoop (c :: rest) col s = (s, col, c :: rest) := by
  rw [kwLoop]
  simp [h]

/-! Column and length monotonicity of the helper loops. -/

theorem intLoop_col_le (l : List Char) : ∀ (col : Int) (s : String),
    col ≤ (intLoop l col s).2.2.1 := by
  induction l with
  | nil => intro col s; simp [intLoop]
  | cons c rest ih =>
      intro col s
      rw [intLoop]
      split
      · simp
      · split
        · calc col ≤ col + 1 := by omega
            _ ≤ _ := ih (col + 1) (s.push c)
        · simp

theorem strLoop_col_le (l : List Char) : ∀ (col : Int) (q : Nat) (s : String),
    col ≤ (strLoop l col q s).2.1 := by
  induction l with
  | nil => intro col q s; simp [strLoop]
  | cons c rest ih =>
      intro col q s
      rw [strLoop]
      by_cases hq : (if c = '"' then q + 1 else q) < 2
      · rw [if_pos hq]
        calc col ≤ col + 1 := by omega
          _ ≤ _ := ih (col + 1) _ (s.push c)
      · rw [if_neg hq]

theorem kwLoop_col_le (l : List Char) : ∀ (col : Int) (s : String),
    col ≤ (kwLoop l col s).2.1 := by
  induction l with
  | nil => intro col s; simp [kwLoop]
  | cons c rest ih =>
      intro col s
      rw [kwLoop]
      split
      · calc col ≤ col + 1 := by omega
          _ ≤ _ := ih (col + 1) (s.push c)
      · simp

theorem intLoop_length_le (l : List Char) : ∀ (col : Int) (s : String),
    (intLoop l col s).2.2.2.length ≤ l.length := by
  induction l with
  | nil => intro col s; simp [intLoop]
  | cons c rest ih =>
      intro col s
      rw [intLoop]
      split
      · simp
      · split
        · calc (intLoop rest (col + 1) (s.push c)).2.2.2.length ≤ rest.length := ih _ _
            _ ≤ (c :: rest).length := by simp
        · simp

theorem strLoop_length_le (l : List Char) : ∀ (col : Int) (q : Nat) (s : String),
    (strLoop l col q s).2.2.length ≤ l.length := by
  induction l with
  | nil => intro col q s; simp [strLoop]
  | cons c rest ih =>
      intro col q s
      rw [strLoop]
      by_cases hq : (if c = '"' then q + 1 else q) < 2
      · rw [if_pos hq]
        calc (strLoop rest (col + 1) (if c = '"' then q + 1 else q) (s.push c)).2.2.length
              ≤ rest.length := ih _ _ _
          _ ≤ (c :: rest).length := by simp
      · rw [if_neg hq]

theorem kwLoop_length_le (l : List Char) : ∀ (col : Int) (s : String),
    (kwLoop l col s).2.2.length ≤ l.length := by
  induction l with
  | nil => intro col s; simp [kwLoop]
  | cons c rest ih =>
      intro col s
      rw [kwLoop]
      split
      · calc (kwLoop rest (col + 1) (s.push c)).2.2.length ≤ rest.length := ih _ _
          _ ≤ (c :: rest).length := by simp
      · simp

/-! Dispatch lemmas: one `Scan` call on an input whose first token is a
digit run or a letter run. -/

theorem scanStep_digit_run_ok (pos : Pos) (ds : List Char) (hne : ds ≠ [])
    (hds : ∀ c ∈ ds, isDigit c = true) (rest : List Char)
    (hrest : rest = [] ∨ ∃ c2 rest2, rest = c2 :: rest2 ∧
      (isLetter c2 || isPunct c2) = false ∧ isDigit c2 = false) :
    scanStep pos (ds ++ rest) =
      (⟨.int, ⟨ds⟩, ⟨pos.line, pos.column + ds.length⟩⟩,
        ⟨pos.line, pos.column + ds.length⟩, rest) := by
  cases ds with
  | nil => exact absurd rfl hne
  | cons c ds2 =>
      have hc := hds c (by simp)
      have hf := digit_facts c hc
      obtain ⟨f1, f2, f3, f4, f5, f6, f7, f8, f9, f10⟩ := hf
      rw [List.cons_append, scanStep]
      simp only [f1, f2, f3, f4, f5, f6, f7, f8, hc, if_false, if_true,
        Bool.false_eq_true, ite_false, ite_true]
      rw [← List.cons_append, intLoop_digits (c :: ds2) hds rest pos.column ""]
      have hstop : intLoop rest (pos.column + (c :: ds2).length) ⟨"".data ++ c :: ds2⟩ =
          (⟨"".data ++ c :: ds2⟩, true, pos.column + (c :: ds2).length, rest) := by
        rcases hrest with rfl | ⟨c2, rest2, rfl, hc2, hd2⟩
        · rw [intLoop]
        · exact intLoop_stops c2 rest2 _ _ hc2 hd2
      rw [hstop]
      simp

theorem scanStep_digit_run_bad (pos : Pos) (ds : List Char) (hne : ds ≠ [])
    (hds : ∀ c ∈ ds, isDigit c = true) (c2 : Char) (rest2 : List Char)
    (hc2 : (isLetter c2 || isPunct c2) = true) :
    scanStep pos (ds ++ c2 :: rest2) =
      (⟨.invalid, ⟨ds⟩, ⟨pos.line, pos.column + ds.length⟩⟩,
        ⟨pos.line, pos.column + ds.length⟩, c2 :: rest2) := by
  cases ds with
  | nil => exact absurd rfl hne
  | cons c ds2 =>
      have hc := hds c (by simp)
      have hf := digit_facts c hc
      obtain ⟨f1, f2, f3, f4, f5, f6, f7, f8, f9, f10⟩ := hf
      rw [List.cons_append, scanStep]
      simp only [f1, f2, f3, f4, f5, f6, f7, f8, hc, if_false, if_true,
        Bool.false_eq_true, ite_false, ite_true]
      rw [← List.cons_append, intLoop_digits (c :: ds2) hds (c2 :: rest2) pos.column ""]
      rw [intLoop_fails c2 rest2 _ _ hc2]
      simp

theorem scanStep_letter_run (pos : Pos) (ls : List Char) (hne : ls ≠ [])
    (hls : ∀ c ∈ ls, isLetter c = true) (rest : List Char)
    (hrest : rest = [] ∨ ∃ c2 rest2, rest = c2 :: rest2 ∧ isLetter c2 = false) :
    scanStep pos (ls ++ rest) =
      (if isValidKeyword ⟨ls⟩
        then (⟨.keyword, ⟨ls⟩, ⟨pos.line, pos.column + ls.length⟩⟩,
          ⟨pos.line, pos.column + ls.length⟩, rest)
        else (⟨.invalid, ⟨ls⟩, zeroPos⟩,
          ⟨pos.line, pos.column + ls.length⟩, rest)) := by
  cases ls with
  | nil => exact absurd rfl hne
  | cons c ls2 =>
      have hc := hls c (by simp)
      have hf := letter_facts c hc
      obtain ⟨f1, f2, f3, f4, f5, f6, f7, f8, f9, f10⟩ := hf
      rw [List.cons_append, scanStep]
      simp only [f1, f2, f3, f4, f5, f6, f7, f8, f9, hc, if_false, if_true,
        Bool.false_eq_true, ite_false, ite_true]
      rw [← List.cons_append, kwLoop_letters (c :: ls2) hls rest pos.column ""]
      have hstop : kwLoop rest (pos.column + (c :: ls2).length) ⟨"".data ++ c :: ls2⟩ =
          (⟨"".data ++ c :: ls2⟩, pos.column + (c :: ls2).length, rest) := by
        rcases hrest with rfl | ⟨c2, rest2, rfl, hc2⟩
        · rw [kwLoop]
        · exact kwLoop_stops c2 rest2 _ _ hc2
      rw [hstop]
      simp

/-! Position monotonicity: the scanner's internal position never moves
backwards in the lexicographic order, and every returned token carries
either the final internal position or the zero position. -/

theorem posLE_refl (p : Pos) : posLE p p := by
  simp [posLE]

theorem posLE_trans {p q r : Pos} (h1 : posLE p q) (h2 : posLE q r) : posLE p r := by
  simp only [posLE] at h1 h2 ⊢
  omega

theorem posLE_line {p q : Pos} (h : posLE p q) : p.line ≤ q.line := by
  simp only [posLE] at h
  omega

/-! Per-branch equations of `scanStep`, one for each dispatch outcome. -/

theorem scanStep_newline (pos : Pos) (rest : List Char) :
    scanStep pos ('\n' :: rest) = scanStep ⟨pos.line + 1, 0⟩ rest := rfl

theorem scanStep_lparen (pos : Pos) (rest : List Char) :
    scanStep pos ('(' :: rest) =
      (⟨.parensL, "(", ⟨pos.line, pos.column + 1⟩⟩, ⟨pos.line, pos.column + 1⟩, rest) := rfl

theorem scanStep_rparen (pos : Pos) (rest : List Char) :
    scanStep pos (')' :: rest) =
      (⟨.parensR, ")", ⟨pos.line, pos.column + 1⟩⟩, ⟨pos.line, pos.column + 1⟩, rest) := rfl

theorem scanStep_lbrack (pos : Pos) (rest : List Char) :
    scanStep pos ('[' :: rest) =
      (⟨.squareL, "[", ⟨pos.line, pos.column + 1⟩⟩, ⟨pos.line, pos.column + 1⟩, rest) := rfl

theorem scanStep_rbrack (pos : Pos) (rest : List Char) :
    scanStep pos (']' :: rest) =
      (⟨.squareR, "]", ⟨pos.line, pos.column + 1⟩⟩, ⟨pos.line, pos.column + 1⟩, rest) := rfl

theorem scanStep_comma (pos : Pos) (rest : List Char) :
    scanStep pos (',' :: rest) =
      (⟨.comma, ",", ⟨pos.line, pos.column + 1⟩⟩, ⟨pos.line, pos.column + 1⟩, rest) := rfl

theorem scanStep_quote (pos : Pos) (rest : List Char) :
    scanStep pos ('"' :: rest) =
      (⟨.string, (strLoop ('"' :: rest) pos.column 0 "").1,
          ⟨pos.line, (strLoop ('"' :: rest) pos.column 0 "").2.1⟩⟩,
        ⟨pos.line, (strLoop ('"' :: rest) pos.column 0 "").2.1⟩,
        (strLoop ('"' :: rest) pos.column 0 "").2.2) := rfl

theorem space_facts (c : Char) (h : isSpace c = true) :
    c ≠ '(' ∧ c ≠ ')' ∧ c ≠ '[' ∧ c ≠ ']' ∧ c ≠ ',' ∧ c ≠ '"' := by
  simp only [isSpace, Bool.or_eq_true, Bool.and_eq_true, decide_eq_true_eq] at h
  refine ⟨?_, ?_, ?_, ?_, ?_, ?_⟩
  all_goals intro hc; subst hc; exact absurd h (by decide)

theorem scanStep_space (pos : Pos) (c : Char) (rest : List Char)
    (hn : c ≠ '\n') (hs : isSpace c = true) :
    scanStep pos (c :: rest) = scanStep ⟨pos.line, pos.column + 1⟩ rest := by
  obtain ⟨f1, f2, f3, f4, f5, f6⟩ := space_facts c hs
  rw [scanStep]
  rw [if_neg hn, if_neg f1, if_neg f2, if_neg f3, if_neg f4, if_neg f5, if_neg f6,
    if_pos hs]

theorem scanStep_digit (pos : Pos) (c : Char) (rest : List Char) (hd : isDigit c = true) :
    scanStep pos (c :: rest) =
      (if (intLoop (c :: rest) pos.column "").2.1
        then (⟨.int, (intLoop (c :: rest) pos.column "").1,
            ⟨pos.line, (intLoop (c :: rest) pos.column "").2.2.1⟩⟩,
          ⟨pos.line, (intLoop (c :: rest) pos.column "").2.2.1⟩,
          (intLoop (c :: rest) pos.column "").2.2.2)
        else (⟨.invalid, (intLoop (c :: rest) pos.column "").1,
            ⟨pos.line, (intLoop (c :: rest) pos.column "").2.2.1⟩⟩,
          ⟨pos.line, (intLoop (c :: rest) pos.column "").2.2.1⟩,
          (intLoop (c :: rest) pos.column "").2.2.2)) := by
  obtain ⟨f1, f2, f3, f4, f5, f6, f7, f8, f9, f10⟩ := digit_facts c hd
  rw [scanStep]
  rw [if_neg f1, if_neg f2, if_neg f3, if_neg f4, if_neg f5, if_neg f6, if_neg f7,
    if_neg (by simp [f8]), if_pos hd]

theorem scanStep_letter (pos : Pos) (c : Char) (rest : List Char) (hl : isLetter c = true) :
    scanStep pos (c :: rest) =
      (if isValidKeyword (kwLoop (c :: rest) pos.column "").1
        then (⟨.keyword, (kwLoop (c :: rest) pos.column "").1,
            ⟨pos.line, (kwLoop (c :: rest) pos.column "").2.1⟩⟩,
          ⟨pos.line, (kwLoop (c :: rest) pos.column "").2.1⟩,
          (kwLoop (c :: rest) pos.column "").2.2)
        else (⟨.invalid, (kwLoop (c :: rest) pos.column "").1, zeroPos⟩,
          ⟨pos.line, (kwLoop (c :: rest) pos.column "").2.1⟩,
          (kwLoop (c :: rest) pos.column "").2.2)) := by
  obtain ⟨f1, f2, f3, f4, f5, f6, f7, f8, f9, f10⟩ := letter_facts c hl
  rw [scanStep]
  rw [if_neg f1, if_neg f2, if_neg f3, if_neg f4, if_neg f5, if_neg f6, if_neg f7,
    if_neg (by simp [f8]), if_neg (by simp [f9]), if_pos hl]

theorem scanStep_other (pos : Pos) (c : Char) (rest : List Char)
    (hn : c ≠ '\n') (f1 : c ≠ '(') (f2 : c ≠ ')') (f3 : c ≠ '[') (f4 : c ≠ ']')
    (f5 : c ≠ ',') (f6 : c ≠ '"') (hs : isSpace c = false) (hd : isDigit c = false)
    (hl : isLetter c = false) :
    scanStep pos (c :: rest) =
      (⟨.invalid, String.singleton c, ⟨pos.line, pos.column + 1⟩⟩,
        ⟨pos.line, pos.column + 1⟩, rest) := by
  rw [scanStep]
  rw [if_neg hn, if_neg f1, if_neg f2, if_neg f3, if_neg f4, if_neg f5, if_neg f6,
    if_neg (by simp [hs]), if_neg (by simp [hd]), if_neg (by simp [hl])]

theorem scanStep_mono : ∀ (input : List Char) (pos : Pos),
    posLE pos (scanStep pos input).2.1 ∧
      ((scanStep pos input).1.position = (scanStep pos input).2.1 ∨
        (scanStep pos input).1.position = zeroPos) := by
  intro input
  induction input with
  | nil => exact fun pos => ⟨posLE_refl pos, Or.inr rfl⟩
  | cons c rest ih =>
      intro pos
      by_cases hn : c = '\n'
      · subst hn
        rw [scanStep_newline]
        obtain ⟨m1, m2⟩ := ih ⟨pos.line + 1, 0⟩
        refine ⟨posLE_trans ?_ m1, m2⟩
        exact Or.inl (lt_add_one pos.line)
      by_cases hc1 : c = '('
      · subst hc1
        rw [scanStep_lparen]
        exact ⟨Or.inr ⟨rfl, le_of_lt (lt_add_one _)⟩, Or.inl rfl⟩
      by_cases hc2 : c = ')'
      · subst hc2
        rw [scanStep_rparen]
        exact ⟨Or.inr ⟨rfl, le_of_lt (lt_add_one _)⟩, Or.inl rfl⟩
      by_cases hc3 : c = '['
      · subst hc3
        rw [scanStep_lbrack]
        exact ⟨Or.inr ⟨rfl, le_of_lt (lt_add_one _)⟩, Or.inl rfl⟩
      by_cases hc4 : c = ']'
      · subst hc4
        rw [scanStep_rbrack]
        exact ⟨Or.inr ⟨rfl, le_of_lt (lt_add_one _)⟩, Or.inl rfl⟩
      by_cases hc5 : c = ','
      · subst hc5
        rw [scanStep_comma]
        exact ⟨Or.inr ⟨rfl, le_of_lt (lt_add_one _)⟩, Or.inl rfl⟩
      by_cases hc6 : c = '"'
      · subst hc6
        rw [scanStep_quote]
        exact ⟨Or.inr ⟨rfl, strLoop_col_le ('"' :: rest) pos.column 0 ""⟩, Or.inl rfl⟩
      by_cases hsp : isSpace c = true
      · rw [scanStep_space pos c rest hn hsp]
        obtain ⟨m1, m2⟩ := ih ⟨pos.line, pos.column + 1⟩
        refine ⟨posLE_trans ?_ m1, m2⟩
        exact Or.inr ⟨rfl, le_of_lt (lt_add_one pos.column)⟩
      by_cases hd : isDigit c = true
      · rw [scanStep_digit pos c rest hd]
        split_ifs
        · exact ⟨Or.inr ⟨rfl, intLoop_col_le (c :: rest) pos.column ""⟩, Or.inl rfl⟩
        · exact ⟨Or.inr ⟨rfl, intLoop_col_le (c :: rest) pos.column ""⟩, Or.inl rfl⟩
      by_cases hl : isLetter c = true
      · rw [scanStep_letter pos c rest hl]
        split_ifs
        · exact ⟨Or.inr ⟨rfl, kwLoop_col_le (c :: rest) pos.column ""⟩, Or.inl rfl⟩
        · exact ⟨Or.inr ⟨rfl, kwLoop_col_le (c :: rest) pos.column ""⟩, Or.inr rfl⟩
      rw [scanStep_other pos c rest hn hc1 hc2 hc3 hc4 hc5 hc6
        (Bool.not_eq_true _ ▸ hsp) (Bool.not_eq_true _ ▸ hd) (Bool.not_eq_true _ ▸ hl)]
      exact ⟨Or.inr ⟨rfl, le_of_lt (lt_add_one _)⟩, Or.inl rfl⟩

theorem carriedPositions_nil : carriedPositions [] = [] := rfl

theorem carriedPositions_cons (t : Tok) (ts : List Tok) :
    carriedPositions (t :: ts) =
      if t.position = zeroPos then carriedPositions ts
      else t.position :: carriedPositions ts := by
  by_cases h : t.position = zeroPos
  · simp [carriedPositions, List.filter_cons, h]
  · simp [carriedPositions, List.filter_cons, h]

theorem scanList_mono : ∀ (fuel : Nat) (pos : Pos) (input : List Char),
    List.Chain' posLE (carriedPositions (scanList fuel pos input)) ∧
      (∀ p ∈ carriedPositions (scanList fuel pos input), posLE pos p) := by
  intro fuel
  induction fuel with
  | zero => exact fun pos input => ⟨by simp [scanList, carriedPositions], by simp [scanList, carriedPositions]⟩
  | succ fuel ih =>
      intro pos input
      obtain ⟨m1, m2⟩ := scanStep_mono input pos
      rw [scanList]
      by_cases he : (scanStep pos input).1.type = .eof
      · rw [if_pos he]
        rw [carriedPositions_cons]
        by_cases hz : (scanStep pos input).1.position = zeroPos
        · rw [if_pos hz]
          exact ⟨by simp [carriedPositions], by simp [carriedPositions]⟩
        · rw [if_neg hz]
          refine ⟨by simp [carriedPositions], ?_⟩
          intro p hp
          rw [carriedPositions_nil] at hp
          simp only [List.mem_cons, List.not_mem_nil, or_false] at hp
          subst hp
          rcases m2 with hps | hps
          · rw [hps]; exact m1
          · exact absurd hps hz
      · rw [if_neg he]
        obtain ⟨c1, c2⟩ := ih (scanStep pos input).2.1 (scanStep pos input).2.2
        rw [carriedPositions_cons]
        by_cases hz : (scanStep pos input).1.position = zeroPos
        · rw [if_pos hz]
          exact ⟨c1, fun p hp => posLE_trans m1 (c2 p hp)⟩
        · rw [if_neg hz]
          have hps : (scanStep pos input).1.position = (scanStep pos input).2.1 := by
            rcases m2 with hps | hps
            · exact hps
            · exact absurd hps hz
          constructor
          · rw [List.chain'_cons']
            refine ⟨?_, c1⟩
            intro q hq
            have hqmem : q ∈ carriedPositions (scanList fuel (scanStep pos input).2.1
                (scanStep pos input).2.2) := by
              exact List.mem_of_mem_head? hq
            rw [hps]
            exact c2 q hqmem
          · intro p hp
            simp only [List.mem_cons] at hp
            rcases hp with rfl | hp
            · rw [hps]; exact m1
            · exact posLE_trans m1 (c2 p hp)

theorem space_class (c : Char) (h : isSpace c = true) :
    (isLetter c || isPunct c) = false ∧ isDigit c = false := by
  simp only [isSpace, Bool.or_eq_true, Bool.and_eq_true, decide_eq_true_eq] at h
  refine ⟨?_, ?_⟩
  · rw [Bool.eq_false_iff]
    intro hx
    simp only [isLetter, isPunct, Bool.or_eq_true, Bool.and_eq_true, decide_eq_true_eq] at hx
    omega
  · rw [Bool.eq_false_iff]
    intro hx
    simp only [isDigit, Bool.and_eq_true, decide_eq_true_eq] at hx
    omega

end Translator

open Language Translator

/-- C1 (amended): decoding an encoded node restores the node for every
algebra node that does not contain the `Cond` variant (whose encoding,
produced under the Go field names `Observation`/`IfTrue`/`IfFalse`, lies
outside the canonical grammar and is rejected by the decoder), and
encoding the result of decoding reproduces every accepted document
exactly; encode is total by construction. -/
theorem claim_C1_roundtrip :
    (∀ v : Value, condFreeValue v = true → decodeValue (encodeValue v) = some v) ∧
    (∀ o : Observation, condFreeObservation o = true →
      decodeObservation (encodeObservation o) = some o) ∧
    (∀ a : Action, condFreeAction a = true → decodeAction (encodeAction a) = some a) ∧
    (∀ c : Case, condFreeCase c = true → decodeCase (encodeCase c) = some c) ∧
    (∀ c : Contract, condFreeContract c = true → decodeContract (encodeContract c) = some c) ∧
    (∀ (d : Json) (c : Contract), decodeContract d = some c → encodeContract c = d) ∧
    (∀ (d : Json) (v : Value), decodeValue d = some v → encodeValue v = d) :=
  ⟨decodeValue_encodeValue, decodeObservation_encodeObservation, decodeAction_encodeAction,
    decodeCase_encodeCase, decodeContract_encodeContract,
    encodeContract_decodeContract, encodeValue_decodeValue⟩

/-- C1 witness: the round trip evaluated on concrete nodes and documents. -/
theorem claim_C1_roundtrip_witness :
    condFreeContract (.letContract "Number" (.constant 1) .close) = true ∧
    decodeContract (encodeContract (.letContract "Number" (.constant 1) .close)) =
      some (.letContract "Number" (.constant 1) .close) ∧
    decodeContract (.str "close") = some .close ∧
    encodeContract .close = .str "close" :=
  ⟨rfl, claim_C1_roundtrip.2.2.2.2.1 _ rfl, rfl,
    claim_C1_roundtrip.2.2.2.2.2.1 (.str "close") .close rfl⟩

/-- C1 counterexample: the round trip fails, as stated, on the `Cond`
node, which the algebra contains but the canonical grammar does not. -/
theorem claim_C1_counterexample :
    decodeValue (encodeValue (.cond true (.constant 0) (.constant 0))) ≠
      some (.cond true (.constant 0) (.constant 0)) := by
  intro h
  have h2 : (none : Option Value) = some (.cond true (.constant 0) (.constant 0)) := h
  cases h2

/-- C2: the `When` contract of the repository's own test encodes to
exactly the claimed document; `Bound` always emits the upper bound under
`"from"` and the lower bound under `"to"`; `When` always emits its three
fields under `"when"`, `"timeout"`, `"timeout_continuation"`. -/
theorem claim_C2_when_encoding :
    encodeContract (.whenContract
        [.mk (.choice ⟨"option", .role "creditor"⟩ [⟨3, 2⟩]) .close] 1666078977926 .close) =
      .obj [("when", .arr [.obj [("case", .obj [("for_choice",
          .obj [("choice_name", .str "option"),
                ("choice_owner", .obj [("role_token", .str "creditor")])]),
          ("choose_between", .arr [.obj [("from", .num 3), ("to", .num 2)]])]),
          ("then", .str "close")]]),
          ("timeout", .num 1666078977926), ("timeout_continuation", .str "close")] ∧
    renderJson (encodeContract (.whenContract
        [.mk (.choice ⟨"option", .role "creditor"⟩ [⟨3, 2⟩]) .close] 1666078977926 .close)) =
      "\x7b\"when\":[\x7b\"case\":\x7b\"for_choice\":\x7b\"choice_name\":\"option\",\"choice_owner\":\x7b\"role_token\":\"creditor\"\x7d\x7d,\"choose_between\":[\x7b\"from\":3,\"to\":2\x7d]\x7d,\"then\":\"close\"\x7d],\"timeout\":1666078977926,\"timeout_continuation\":\"close\"\x7d" ∧
    (∀ u l : Nat, encodeBound ⟨u, l⟩ = .obj [("from", .num u), ("to", .num l)]) ∧
    (∀ (cs : List Case) (t : Timeout) (k : Contract),
      encodeContract (.whenContract cs t k) =
        .obj [("when", .arr (encodeCases cs)), ("timeout", .num t),
              ("timeout_continuation", encodeContract k)]) :=
  ⟨rfl, rfl, fun u l => rfl, fun cs t k => rfl⟩

/-- C5: a `Constant` encodes to a bare number document (never a string or
an object), decodes back without truncation, the renderer prints a bare
base-10 numeral for it, and the `Let` contract of the repository's test
encodes to exactly the claimed document. -/
theorem claim_C5_constant_encoding :
    (∀ n : Int, encodeValue (.constant n) = .num n) ∧
    (∀ n : Int, decodeValue (.num n) = some (.constant n)) ∧
    (∀ n : Int, renderJson (.num n) = toString n) ∧
    encodeContract (.letContract "Number" (.constant 1) .close) =
      .obj [("let", .str "Number"), ("be", .num 1), ("then", .str "close")] ∧
    renderJson (encodeContract (.letContract "Number" (.constant 1) .close)) =
      "\x7b\"let\":\"Number\",\"be\":1,\"then\":\"close\"\x7d" :=
  ⟨fun n => rfl, fun n => rfl, fun n => rfl, rfl, rfl⟩

/-- C10: every `Pay` contract's `"to"` field is the single-key object
whose key is the capitalized literal `"Party"` (the Go `Payee` struct has
no `json` tag on its `Party` field), and the repository's own test
contract encodes accordingly. -/
theorem claim_C10_payee_key :
    (∀ (a : AccountId) (p : Payee) (t : Language.Token) (v : Value) (k : Contract),
      encodeContract (.pay a p t v k) =
        .obj [("from_account", encodeParty a),
              ("to", .obj [("Party", encodeParty p.party)]),
              ("token", encodeToken t), ("pay", encodeValue v),
              ("then", encodeContract k)]) ∧
    encodeContract (.pay (.role "debtor") ⟨.role "creditor"⟩ Ada (.constant 5000000) .close) =
      .obj [("from_account", .obj [("role_token", .str "debtor")]),
            ("to", .obj [("Party", .obj [("role_token", .str "creditor")])]),
            ("token", .obj [("currency_symbol", .str ""), ("token_name", .str "")]),
            ("pay", .num 5000000), ("then", .str "close")] ∧
    renderJson (encodeContract
        (.pay (.role "debtor") ⟨.role "creditor"⟩ Ada (.constant 5000000) .close)) =
      "\x7b\"from_account\":\x7b\"role_token\":\"debtor\"\x7d,\"to\":\x7b\"Party\":\x7b\"role_token\":\"creditor\"\x7d\x7d,\"token\":\x7b\"currency_symbol\":\"\",\"token_name\":\"\"\x7d,\"pay\":5000000,\"then\":\"close\"\x7d" :=
  ⟨fun a p t v k => rfl, rfl, rfl⟩

/-- C3: evaluation of the scanner on a quoted string. The token value
captures the opening quote but not the closing quote, the closing quote
is backed up rather than consumed, and the next `Scan` call opens a new
string token at the backed-up quote; an unterminated string returns the
captured partial text. -/
theorem claim_C3_string_scan :
    scanAll startPos "\"ab\"".toList =
      [⟨.string, "\"ab", ⟨1, 3⟩⟩, ⟨.string, "\"", ⟨1, 4⟩⟩, ⟨.eof, "", zeroPos⟩] ∧
    scanAll startPos "\"ab".toList = [⟨.string, "\"ab", ⟨1, 3⟩⟩, ⟨.eof, "", zeroPos⟩] :=
  ⟨rfl, rfl⟩

/-- C4: evaluation of the scanner on malformed lexemes. The unrecognized
word yields an `INVALID` token carrying the captured text but the zero
position (the Go return omits the `Position` field), while the
unterminated integer's `INVALID` token carries its position; scanning
continues with the remaining tokens in both cases. -/
theorem claim_C4_invalid_tokens :
    scanAll startPos "ab 12".toList =
      [⟨.invalid, "ab", zeroPos⟩, ⟨.int, "12", ⟨1, 5⟩⟩, ⟨.eof, "", zeroPos⟩] ∧
    scanAll startPos "123.".toList =
      [⟨.invalid, "123", ⟨1, 3⟩⟩, ⟨.invalid, ".", ⟨1, 4⟩⟩, ⟨.eof, "", zeroPos⟩] :=
  ⟨rfl, rfl⟩

/-- C6: a pure digit run (ended by the input or by whitespace) scans to a
single `INT` token whose value is the digit run; a digit run immediately
followed by a letter or punctuation character scans to one `INVALID`
token carrying the digits, the offending character is not consumed, and
the next call resumes at it. -/
theorem claim_C6_integer_tokens :
    (∀ ds : List Char, ds ≠ [] → (∀ c ∈ ds, isDigit c = true) →
      scanAll startPos ds =
        [⟨.int, ⟨ds⟩, ⟨1, (ds.length : Int)⟩⟩, ⟨.eof, "", zeroPos⟩]) ∧
    (∀ (pos : Pos) (ds : List Char) (c2 : Char) (rest : List Char), ds ≠ [] →
      (∀ c ∈ ds, isDigit c = true) → isSpace c2 = true →
      scanStep pos (ds ++ c2 :: rest) =
        (⟨.int, ⟨ds⟩, ⟨pos.line, pos.column + ds.length⟩⟩,
          ⟨pos.line, pos.column + ds.length⟩, c2 :: rest)) ∧
    (∀ (pos : Pos) (ds : List Char) (c2 : Char) (rest : List Char), ds ≠ [] →
      (∀ c ∈ ds, isDigit c = true) → (isLetter c2 || isPunct c2) = true →
      scanStep pos (ds ++ c2 :: rest) =
        (⟨.invalid, ⟨ds⟩, ⟨pos.line, pos.column + ds.length⟩⟩,
          ⟨pos.line, pos.column + ds.length⟩, c2 :: rest)) := by
  refine ⟨?_, ?_, ?_⟩
  · intro ds hne hds
    have h1 := scanStep_digit_run_ok startPos ds hne hds [] (Or.inl rfl)
    rw [List.append_nil] at h1
    cases ds with
    | nil => exact absurd rfl hne
    | cons c ds2 =>
        show scanList ((c :: ds2).length + 1) startPos (c :: ds2) = _
        rw [List.length_cons, scanList, h1]
        simp [scanList, startPos, scanStep]
  · intro pos ds c2 rest hne hds hsp
    obtain ⟨hcl, hdg⟩ := space_class c2 hsp
    exact scanStep_digit_run_ok pos ds hne hds (c2 :: rest) (Or.inr ⟨c2, rest, rfl, hcl, hdg⟩)
  · intro pos ds c2 rest hne hds hc2
    exact scanStep_digit_run_bad pos ds hne hds c2 rest hc2

/-- C6 witness: the three parts evaluated at concrete inputs. -/
theorem claim_C6_integer_tokens_witness :
    scanAll startPos "123".toList =
      [⟨.int, "123", ⟨1, 3⟩⟩, ⟨.eof, "", zeroPos⟩] ∧
    scanStep startPos ("12".toList ++ ' ' :: '3' :: []) =
      (⟨.int, "12", ⟨1, 2⟩⟩, ⟨1, 2⟩, ' ' :: '3' :: []) ∧
    scanStep startPos ("123".toList ++ '.' :: []) =
      (⟨.invalid, "123", ⟨1, 3⟩⟩, ⟨1, 3⟩, '.' :: []) :=
  ⟨claim_C6_integer_tokens.1 "123".toList (by decide) (by decide),
    claim_C6_integer_tokens.2.1 startPos "12".toList ' ' ('3' :: []) (by decide) (by decide)
      (by decide),
    claim_C6_integer_tokens.2.2 startPos "123".toList '.' [] (by decide) (by decide)
      (by decide)⟩

/-- C7: each word of the fixed vocabulary scans to exactly one `KEYWORD`
token carrying the word, and every nonempty letter sequence outside the
vocabulary scans to exactly one `INVALID` token carrying the word. -/
theorem claim_C7_keywords :
    (∀ w ∈ validKeywords, scanAll startPos w.toList =
      [⟨.keyword, w, ⟨1, (w.length : Int)⟩⟩, ⟨.eof, "", zeroPos⟩]) ∧
    (∀ ls : List Char, ls ≠ [] → (∀ c ∈ ls, isLetter c = true) →
      isValidKeyword ⟨ls⟩ = false →
      scanAll startPos ls = [⟨.invalid, ⟨ls⟩, zeroPos⟩, ⟨.eof, "", zeroPos⟩]) := by
  refine ⟨by decide, ?_⟩
  intro ls hne hls hkw
  have h1 := scanStep_letter_run startPos ls hne hls [] (Or.inl rfl)
  rw [List.append_nil, if_neg (by simp [hkw])] at h1
  cases ls with
  | nil => exact absurd rfl hne
  | cons c ls2 =>
      show scanList ((c :: ls2).length + 1) startPos (c :: ls2) = _
      rw [List.length_cons, scanList, h1]
      simp [scanList, startPos, scanStep]

/-- C7 witness: a keyword and a non-keyword evaluated concretely. -/
theorem claim_C7_keywords_witness :
    scanAll startPos "Let".toList =
      [⟨.keyword, "Let", ⟨1, 3⟩⟩, ⟨.eof, "", zeroPos⟩] ∧
    scanAll startPos "Foo".toList =
      [⟨.invalid, "Foo", zeroPos⟩, ⟨.eof, "", zeroPos⟩] :=
  ⟨claim_C7_keywords.1 "Let" (by decide),
    claim_C7_keywords.2 "Foo".toList (by decide) (by decide) (by decide)⟩

/-- C8 (amended): across one scan pass the positions carried by the
returned tokens are non-decreasing in lexicographic order once the tokens
built without a `Position` field — the `EOF` token and unrecognized-word
`INVALID` tokens, which carry the zero position — are excluded; and on
every newline the column counter resets to zero while the line strictly
increases. -/
theorem claim_C8_position_monotone :
    (∀ input : List Char, List.Chain' posLE (carriedPositions (scanAll startPos input))) ∧
    (∀ (l c : Int) (rest : List Char),
      scanStep ⟨l, c⟩ ('\n' :: rest) = scanStep ⟨l + 1, 0⟩ rest) :=
  ⟨fun input => (scanList_mono (input.length + 1) startPos input).1, fun l c rest => rfl⟩

/-- C8 counterexample: on the input `( ab` the stream of all returned
token positions is not non-decreasing, because the unrecognized word and
the `EOF` token carry the zero position after the parenthesis's (1,1). -/
theorem claim_C8_counterexample :
    ¬ List.Chain' posLE ((scanAll startPos ('(' :: ' ' :: 'a' :: 'b' :: [])).map
      Tok.position) := by
  intro hch
  have he : (scanAll startPos ('(' :: ' ' :: 'a' :: 'b' :: [])).map Tok.position =
      [⟨1, 1⟩, ⟨0, 0⟩, ⟨0, 0⟩] := rfl
  rw [he] at hch
  have h12 := (List.chain'_cons.mp hch).1
  simp only [posLE] at h12
  omega

/-- C9: the claimed end-to-end scenario holds exactly — each returned
token carries the position of its last consumed character — while the
unrecognized-word `INVALID` token instead carries the zero position (the
Go return omits the `Position` field); in general every token's position
is either the scanner's internal position after the token's last
consumed character or the zero position. -/
theorem claim_C9_positions :
    scanAll startPos "( )\n[ ]".toList =
      [⟨.parensL, "(", ⟨1, 1⟩⟩, ⟨.parensR, ")", ⟨1, 3⟩⟩,
       ⟨.squareL, "[", ⟨2, 1⟩⟩, ⟨.squareR, "]", ⟨2, 3⟩⟩, ⟨.eof, "", zeroPos⟩] ∧
    scanAll startPos "xy".toList = [⟨.invalid, "xy", zeroPos⟩, ⟨.eof, "", zeroPos⟩] ∧
    (∀ (pos : Pos) (input : List Char),
      (scanStep pos input).1.position = (scanStep pos input).2.1 ∨
        (scanStep pos input).1.position = zeroPos) :=
  ⟨rfl, rfl, fun pos input => (scanStep_mono input pos).2⟩

end Marlowe
